import Mathlib

/-!
Verification of the `string_utf8.c` dynamic-string library (c99extend).

The C code is shallowly embedded: bytes (`unsigned char` values) are `Nat`
(always `< 256` where it matters, stated as hypotheses), the C `String`
struct becomes a Lean structure whose `data` field is `Option (List Nat)`
(`none` models a NULL `data` pointer, `some block` models an allocated block
of `cap` bytes), and a nullable `String*` argument is `Option String`.
Allocation (`malloc` / `realloc`) success is an explicit `Bool` parameter.
-/

namespace C99

/-! ## UTF-8 validation (`utf8_validate`, string_utf8.c lines 133-201) -/

/--
One iteration of the `utf8_validate` loop body (lines 136-198): classify the
lead byte `b0` (the `if` / `else if` chain on lines 142-163), check that
enough continuation bytes remain (`i + extraBytes >= length`, line 166,
which on the list of remaining bytes is a pattern match on the tail), check
each continuation byte's form `(bx & 0xC0) == 0x80` while accumulating
`codepoint = (codepoint << 6) | (bx & 0x3F)` seeded from the masked lead
byte (lines 171-177), then apply the overlong / surrogate / range checks of
the `switch` (lines 180-196).  `some rest'` is the input remaining after
this sequence (the loop's `i += extraBytes + 1`); `none` means
`return false`.
-/
def utf8Step (b0 : Nat) (rest : List Nat) : Option (List Nat) :=
  if b0 ≤ 0x7F then
    some rest
  else if 0xC2 ≤ b0 ∧ b0 ≤ 0xDF then
    match rest with
    | b1 :: rest1 =>
      if (b1 &&& 0xC0) = 0x80 then
        if ((b0 &&& 0x1F) <<< 6) ||| (b1 &&& 0x3F) < 0x80 then none
        else some rest1
      else none
    | [] => none
  else if 0xE0 ≤ b0 ∧ b0 ≤ 0xEF then
    match rest with
    | b1 :: b2 :: rest2 =>
      if (b1 &&& 0xC0) = 0x80 then
        if (b2 &&& 0xC0) = 0x80 then
          if ((((b0 &&& 0x0F) <<< 6) ||| (b1 &&& 0x3F)) <<< 6) ||| (b2 &&& 0x3F) < 0x800 then
            none
          else if 0xD800 ≤ ((((b0 &&& 0x0F) <<< 6) ||| (b1 &&& 0x3F)) <<< 6) ||| (b2 &&& 0x3F) ∧
              ((((b0 &&& 0x0F) <<< 6) ||| (b1 &&& 0x3F)) <<< 6) ||| (b2 &&& 0x3F) ≤ 0xDFFF then
            none
          else some rest2
        else none
      else none
    | _ => none
  else if 0xF0 ≤ b0 ∧ b0 ≤ 0xF4 then
    match rest with
    | b1 :: b2 :: b3 :: rest3 =>
      if (b1 &&& 0xC0) = 0x80 then
        if (b2 &&& 0xC0) = 0x80 then
          if (b3 &&& 0xC0) = 0x80 then
            if ((((((b0 &&& 0x07) <<< 6) ||| (b1 &&& 0x3F)) <<< 6) ||| (b2 &&& 0x3F)) <<< 6) |||
                (b3 &&& 0x3F) < 0x10000 then
              none
            else if 0x10FFFF <
                ((((((b0 &&& 0x07) <<< 6) ||| (b1 &&& 0x3F)) <<< 6) ||| (b2 &&& 0x3F)) <<< 6) |||
                (b3 &&& 0x3F) then
              none
            else some rest3
          else none
        else none
      else none
    | _ => none
  else none

/--
The `while (i < length)` loop of `utf8_validate` (lines 136-199) on the list
of remaining bytes: when the whole input is consumed the function returns
`true`; otherwise one sequence is checked by `utf8Step` and the scan
continues on what remains.
-/
def utf8ValidBytes (bs : List Nat) : Bool :=
  match bs with
  | [] => true
  | b0 :: rest =>
    match h : utf8Step b0 rest with
    | some rest1 => utf8ValidBytes rest1
    | none => false
termination_by bs.length
decreasing_by
  have hlen : rest1.length ≤ rest.length := by
    unfold utf8Step at h
    repeat' split at h
    all_goals first
      | (injection h with h
         subst h
         try simp only [List.length_cons]
         omega)
      | exact Option.noConfusion h
  simp
  omega

/--
`utf8_validate(data, length)` (lines 133-201).  A NULL `data` pointer returns
`true` immediately; otherwise the loop reads exactly the first `length` bytes
of the pointed-to block (reading past the block would be undefined behaviour
in C, represented here by `List.take` truncation).
-/
def utf8_validate (data : Option (List Nat)) (length : Nat) : Bool :=
  match data with
  | none => true
  | some bs => utf8ValidBytes (bs.take length)

/-! ## RFC 3629 well-formedness, from the specification's words

The spec-side predicate: the input is a concatenation of encodings whose lead
bytes fall in the four valid classes, every continuation byte has top bits
`10`, overlong encodings and surrogates and codepoints above `0x10FFFF` are
rejected, and the empty input is valid.  The decoded codepoint is written
with ordinary arithmetic (high bits of the lead byte, then six bits per
continuation byte), independently of the C code's shift/mask formulation.
-/

/-- Codepoint decoded from a 2-byte sequence: 5 low bits of the lead byte,
then 6 bits of the continuation byte. -/
def cp2 (b0 b1 : Nat) : Nat := (b0 % 32) * 64 + b1 % 64

/-- Codepoint decoded from a 3-byte sequence. -/
def cp3 (b0 b1 b2 : Nat) : Nat := (b0 % 16) * 4096 + (b1 % 64) * 64 + b2 % 64

/-- Codepoint decoded from a 4-byte sequence. -/
def cp4 (b0 b1 b2 b3 : Nat) : Nat :=
  (b0 % 8) * 262144 + (b1 % 64) * 4096 + (b2 % 64) * 64 + b3 % 64

/-- A continuation byte: top two bits are `10`, i.e. the byte lies in
`0x80 .. 0xBF`. -/
def IsCont (b : Nat) : Prop := 0x80 ≤ b ∧ b ≤ 0xBF

instance (b : Nat) : Decidable (IsCont b) :=
  inferInstanceAs (Decidable (0x80 ≤ b ∧ b ≤ 0xBF))

/-- Well-formed UTF-8 per RFC 3629, as stated by the specification:
a concatenation of 1- to 4-byte encodings with valid lead bytes, valid
continuation bytes, no overlong forms, no surrogates, nothing above
`U+10FFFF`; the empty sequence is well formed. -/
inductive Utf8WF : List Nat → Prop
  | nil : Utf8WF []
  | one {b : Nat} {rest : List Nat} : b ≤ 0x7F → Utf8WF rest → Utf8WF (b :: rest)
  | two {b0 b1 : Nat} {rest : List Nat} :
      0xC2 ≤ b0 → b0 ≤ 0xDF → IsCont b1 → 0x80 ≤ cp2 b0 b1 →
      Utf8WF rest → Utf8WF (b0 :: b1 :: rest)
  | three {b0 b1 b2 : Nat} {rest : List Nat} :
      0xE0 ≤ b0 → b0 ≤ 0xEF → IsCont b1 → IsCont b2 → 0x800 ≤ cp3 b0 b1 b2 →
      (cp3 b0 b1 b2 < 0xD800 ∨ 0xDFFF < cp3 b0 b1 b2) →
      Utf8WF rest → Utf8WF (b0 :: b1 :: b2 :: rest)
  | four {b0 b1 b2 b3 : Nat} {rest : List Nat} :
      0xF0 ≤ b0 → b0 ≤ 0xF4 → IsCont b1 → IsCont b2 → IsCont b3 →
      0x10000 ≤ cp4 b0 b1 b2 b3 → cp4 b0 b1 b2 b3 ≤ 0x10FFFF →
      Utf8WF rest → Utf8WF (b0 :: b1 :: b2 :: b3 :: rest)

/-! ## The C `String` struct and its operations

`data` is the malloc'ed block: `none` models a NULL pointer, `some block`
models an allocated block whose list entries are the block's `cap` bytes.
A nullable `String*` argument is `Option String`.  `malloc` / `realloc`
success is an explicit `alloc : Bool` parameter; byte stores past the end of
the allocation are undefined behaviour in C and are discarded by the model
(`List.set` / the final `List.take` in `writeAt` are out-of-bounds no-ops).
-/

structure String where
  data : Option (List Nat)
  len : Nat
  cap : Nat
deriving Repr, DecidableEq

/-- `str_init` (lines 18-24). -/
def str_init : String := { data := none, len := 0, cap := 0 }

/-- The length `strlen` computes on a pointed-to byte array: the number of
bytes before the first zero byte.  (A proper C string always contains a
terminator; `strlen` on an unterminated array would read out of bounds.) -/
def cstrlen (p : List Nat) : Nat := (p.takeWhile (fun b => b != 0)).length

/-- `str_from_cstr` (lines 29-40).  `cstr` is the pointed-to byte array
(`none` for NULL); `memcpy` copies `s.cap = length + 1` bytes, including the
terminator.  The C code sets `s.cap` before calling `malloc`, so when
allocation fails the returned struct has `cap = length + 1` and NULL
`data`. -/
def str_from_cstr (alloc : Bool) (cstr : Option (List Nat)) : String :=
  match cstr with
  | none => str_init
  | some p =>
    if alloc then
      { data := some (p.take (cstrlen p + 1)), len := cstrlen p, cap := cstrlen p + 1 }
    else
      { data := none, len := 0, cap := cstrlen p + 1 }

/-- `str_free` (lines 45-53): releases the block and zeroes the fields. -/
def str_free (s : Option String) : Option String :=
  match s with
  | none => none
  | some _ => some str_init

/-- `str_data` (lines 58-61): the internal block, or the literal `""` (a
single zero byte) when `s` or `s->data` is NULL. -/
def str_data (s : Option String) : List Nat :=
  match s with
  | none => [0]
  | some t =>
    match t.data with
    | none => [0]
    | some block => block

/-- A successful `realloc(old, new_cap)` with `new_cap` at least the old
block's size: the old bytes followed by uninitialised storage.  C leaves
those fresh bytes indeterminate, so they are modelled by an arbitrary
function `fresh` giving the byte found at each offset of the grown region;
every theorem about a grown buffer quantifies over `fresh`. -/
def reallocBlock (old : List Nat) (new_cap : Nat) (fresh : Nat → Nat) : List Nat :=
  old.take new_cap ++ (List.range (new_cap - old.length)).map fun i => fresh (old.length + i)

/-- `str_reserve` (lines 66-75) on a non-NULL `String*`.  On `realloc`
failure (`alloc = false`) the buffer is unchanged; on success the bytes
beyond the old block are the indeterminate `fresh` bytes. -/
def str_reserve_s (alloc : Bool) (fresh : Nat → Nat) (s : String) (new_cap : Nat) : String :=
  if new_cap > s.cap then
    if alloc then
      { data := some (reallocBlock (s.data.getD []) new_cap fresh), len := s.len,
        cap := new_cap }
    else s
  else s

/-- `str_reserve` (lines 66-75): no-op on a NULL `String*`. -/
def str_reserve (alloc : Bool) (fresh : Nat → Nat) (s : Option String) (new_cap : Nat) :
    Option String :=
  match s with
  | none => none
  | some t => some (str_reserve_s alloc fresh t new_cap)

/-- The write step of `str_push_back` (lines 86-90): whenever `data` is
non-NULL — even if the preceding growth failed — store the byte, increment
the length and write the terminator.  (After a failed growth the terminator
store at the new `len` is an out-of-bounds write in C; the model's
`List.set` drops it.) -/
def pushBackWrite (c : Nat) (s1 : String) : Option String :=
  match s1.data with
  | none => some s1
  | some block =>
    some { data := some ((block.set s1.len c).set (s1.len + 1) 0),
           len := s1.len + 1, cap := s1.cap }

/-- `str_push_back` (lines 80-91): grow if `len + 1 >= cap` (doubling, with
minimum 2), then perform the guarded write step. -/
def str_push_back (alloc : Bool) (fresh : Nat → Nat) (s : Option String) (c : Nat) :
    Option String :=
  match s with
  | none => none
  | some s0 =>
    pushBackWrite c (if s0.len + 1 ≥ s0.cap then
        str_reserve_s alloc fresh s0 (if s0.cap = 0 then 2 else s0.cap * 2)
      else s0)

/-- `memcpy(block + off, src, src.length)` within a block; bytes that would
land past the end of the allocation (undefined behaviour in C) are
discarded. -/
def writeAt (block : List Nat) (off : Nat) (src : List Nat) : List Nat :=
  (block.take off ++ src ++ block.drop (off + src.length)).take block.length

/-- The write step of `str_concat` (lines 102-105): whenever `dest->data`
is non-NULL — even if the preceding growth failed — copy the source's
`len + 1` bytes (terminator included) after `dest`'s content and extend the
length. -/
def concatWrite (sblock : List Nat) (slen : Nat) (d1 : String) : Option String :=
  match d1.data with
  | none => some d1
  | some dblock =>
    some { data := some (writeAt dblock d1.len (sblock.take (slen + 1))),
           len := d1.len + slen, cap := d1.cap }

/-- `str_concat` (lines 96-106): no-op when `dest`, `src` or `src->data` is
NULL; otherwise reserve `dest->len + src->len + 1` bytes if needed and
perform the guarded write step. -/
def str_concat (alloc : Bool) (fresh : Nat → Nat) (dest src : Option String) :
    Option String :=
  match dest with
  | none => dest
  | some d =>
    match src with
    | none => dest
    | some t =>
      match t.data with
      | none => dest
      | some sblock =>
        concatWrite sblock t.len (if d.len + t.len + 1 > d.cap then
            str_reserve_s alloc fresh d (d.len + t.len + 1)
          else d)

/-- `str_plus` (lines 111-128): a NULL / data-less operand routes through
`str_from_cstr(str_data(other))`; otherwise a fresh block of
`total_len + 1` bytes receives `s1`'s `len` bytes and `s2`'s `len + 1`
bytes (terminator included).  `result.cap` is set before `malloc`, so on
allocation failure the result has `cap = total_len + 1` and NULL `data`. -/
def str_plus (alloc : Bool) (s1 s2 : Option String) : String :=
  match s1 with
  | none => str_from_cstr alloc (some (str_data s2))
  | some t1 =>
    match t1.data with
    | none => str_from_cstr alloc (some (str_data s2))
    | some b1 =>
      match s2 with
      | none => str_from_cstr alloc (some (str_data s1))
      | some t2 =>
        match t2.data with
        | none => str_from_cstr alloc (some (str_data s1))
        | some b2 =>
          if alloc then
            { data := some (b1.take t1.len ++ b2.take (t2.len + 1)),
              len := t1.len + t2.len, cap := t1.len + t2.len + 1 }
          else
            { data := none, len := 0, cap := t1.len + t2.len + 1 }

/-- `str_validate_utf8` (lines 203-206). -/
def str_validate_utf8 (s : Option String) : Bool :=
  match s with
  | none => true
  | some t => utf8_validate t.data t.len

/-- `str_remove_utf8_bom` (lines 229-243): the C function's `bool` result
paired with the updated struct.  When the first three bytes are
`EF BB BF` and `len >= 3`, `memmove` shifts the following `len - 3` bytes to
the front, the terminator is written at the new length, and the length
shrinks by 3. -/
def str_remove_utf8_bom (s : Option String) : Bool × Option String :=
  match s with
  | none => (false, none)
  | some t =>
    match t.data with
    | none => (false, some t)
    | some block =>
      if t.len < 3 then (false, some t)
      else if block.getD 0 0 = 0xEF ∧ block.getD 1 0 = 0xBB ∧ block.getD 2 0 = 0xBF then
        (true, some { data := some ((writeAt block 0 ((block.drop 3).take (t.len - 3))).set
                        (t.len - 3) 0),
                      len := t.len - 3, cap := t.cap })
      else (false, some t)

/-- The `while` loop of `str_strip_crlf` (lines 256-264), recursing on the
current length: while the length is positive and the last byte is `\n` (10)
or `\r` (13), overwrite it with the terminator and decrement the length. -/
def stripCrlfLoop : List Nat → Nat → List Nat × Nat
  | block, 0 => (block, 0)
  | block, n + 1 =>
    if block.getD n 0 = 10 ∨ block.getD n 0 = 13 then stripCrlfLoop (block.set n 0) n
    else (block, n + 1)

/-- `str_strip_crlf` (lines 254-265): no-op when `s` or `s->data` is NULL or
the buffer is empty. -/
def str_strip_crlf (s : Option String) : Option String :=
  match s with
  | none => none
  | some t =>
    match t.data with
    | none => some t
    | some block =>
      if t.len = 0 then some t
      else
        some { data := some (stripCrlfLoop block t.len).1,
               len := (stripCrlfLoop block t.len).2, cap := t.cap }

/-- The logical content of a `String`: its first `len` block bytes. -/
def content (s : String) : List Nat := (s.data.getD []).take s.len

/-- The Buffer invariant stated by the specification: absent data forces
`length = capacity = 0`; present data means the block has exactly `cap`
bytes, `cap > len`, and the byte at offset `len` is the zero terminator. -/
def Inv (s : String) : Prop :=
  match s.data with
  | none => s.len = 0 ∧ s.cap = 0
  | some block => block.length = s.cap ∧ s.len < s.cap ∧ block[s.len]? = some 0

/-- Specification-side description of `strip_trailing_crlf`: the longest
prefix of the content whose last byte is neither LF nor CR, obtained by
dropping the maximal trailing run of LF/CR bytes. -/
def dropTrailingCrlf (l : List Nat) : List Nat :=
  (l.reverse.dropWhile (fun b => b == 10 || b == 13)).reverse

instance (s : String) : Decidable (Inv s) := by
  unfold Inv
  cases s.data with
  | none => exact inferInstanceAs (Decidable (_ ∧ _))
  | some block => exact inferInstanceAs (Decidable (_ ∧ _ ∧ _))

/-- `Inv` lifted to a nullable `String*`: whatever non-NULL struct the value
holds satisfies the invariant. -/
def InvOpt (s : Option String) : Prop := ∀ t, s = some t → Inv t

/-- A `String*` with no storage: either a NULL pointer or a struct whose
`data` pointer is NULL. -/
def NoStorage : Option String → Prop
  | none => True
  | some t => t.data = none

instance (s : Option String) : Decidable (NoStorage s) := by
  unfold NoStorage
  cases s with
  | none => exact inferInstanceAs (Decidable True)
  | some t => exact inferInstanceAs (Decidable (_ = _))

/-! ### Bridges between the C code's bit operations and the arithmetic decode -/

theorem and63 (b : Nat) : b &&& 0x3F = b % 64 := by
  have h := Nat.and_pow_two_sub_one_eq_mod b 6
  norm_num at h
  exact h

theorem and31 (b : Nat) : b &&& 0x1F = b % 32 := by
  have h := Nat.and_pow_two_sub_one_eq_mod b 5
  norm_num at h
  exact h

theorem and15 (b : Nat) : b &&& 0x0F = b % 16 := by
  have h := Nat.and_pow_two_sub_one_eq_mod b 4
  norm_num at h
  exact h

theorem and7 (b : Nat) : b &&& 0x07 = b % 8 := by
  have h := Nat.and_pow_two_sub_one_eq_mod b 3
  norm_num at h
  exact h

theorem shl6_or (x b : Nat) (hb : b < 64) : (x <<< 6) ||| b = 64 * x + b := by
  have hb' : b < 2 ^ 6 := by norm_num [hb]
  rw [Nat.shiftLeft_eq, Nat.mul_comm x (2 ^ 6), ← Nat.mul_add_lt_is_or hb' x]

set_option maxRecDepth 4000 in
theorem isCont_iff : ∀ b : Nat, b < 256 → ((b &&& 0xC0) = 0x80 ↔ IsCont b) := by
  decide

theorem cp2_bridge (b0 b1 : Nat) :
    ((b0 &&& 0x1F) <<< 6) ||| (b1 &&& 0x3F) = cp2 b0 b1 := by
  rw [and31, and63, shl6_or _ _ (Nat.mod_lt _ (by norm_num))]
  unfold cp2
  omega

theorem cp3_bridge (b0 b1 b2 : Nat) :
    ((((b0 &&& 0x0F) <<< 6) ||| (b1 &&& 0x3F)) <<< 6) ||| (b2 &&& 0x3F) = cp3 b0 b1 b2 := by
  rw [and15, and63, and63, shl6_or _ _ (Nat.mod_lt _ (by norm_num)),
    shl6_or _ _ (Nat.mod_lt _ (by norm_num))]
  unfold cp3
  omega

theorem cp4_bridge (b0 b1 b2 b3 : Nat) :
    ((((((b0 &&& 0x07) <<< 6) ||| (b1 &&& 0x3F)) <<< 6) ||| (b2 &&& 0x3F)) <<< 6) |||
      (b3 &&& 0x3F) = cp4 b0 b1 b2 b3 := by
  rw [and7, and63, and63, and63, shl6_or _ _ (Nat.mod_lt _ (by norm_num)),
    shl6_or _ _ (Nat.mod_lt _ (by norm_num)), shl6_or _ _ (Nat.mod_lt _ (by norm_num))]
  unfold cp4
  omega

/-! ### `utf8Step` characterised against the specification's conditions -/

theorem utf8Step_cases {b0 : Nat} {rest rest' : List Nat} (hb0 : b0 < 256)
    (hb : ∀ b ∈ rest, b < 256) (h : utf8Step b0 rest = some rest') :
    (b0 ≤ 0x7F ∧ rest' = rest) ∨
    (∃ b1, 0xC2 ≤ b0 ∧ b0 ≤ 0xDF ∧ IsCont b1 ∧ 0x80 ≤ cp2 b0 b1 ∧ rest = b1 :: rest') ∨
    (∃ b1 b2, 0xE0 ≤ b0 ∧ b0 ≤ 0xEF ∧ IsCont b1 ∧ IsCont b2 ∧ 0x800 ≤ cp3 b0 b1 b2 ∧
      (cp3 b0 b1 b2 < 0xD800 ∨ 0xDFFF < cp3 b0 b1 b2) ∧ rest = b1 :: b2 :: rest') ∨
    (∃ b1 b2 b3, 0xF0 ≤ b0 ∧ b0 ≤ 0xF4 ∧ IsCont b1 ∧ IsCont b2 ∧ IsCont b3 ∧
      0x10000 ≤ cp4 b0 b1 b2 b3 ∧ cp4 b0 b1 b2 b3 ≤ 0x10FFFF ∧
      rest = b1 :: b2 :: b3 :: rest') := by
  unfold utf8Step at h
  repeat' split at h
  all_goals try exact Option.noConfusion h
  all_goals injection h with h
  case _ =>
    rename_i h7
    exact Or.inl ⟨h7, h.symm⟩
  case _ =>
    rename_i b1 rest1 hcont hov
    subst h
    have hb1 : b1 < 256 := hb b1 (by simp)
    rw [cp2_bridge] at hov
    exact Or.inr (Or.inl ⟨b1, by omega, by omega, (isCont_iff b1 hb1).mp hcont, by omega, rfl⟩)
  case _ =>
    rename_i b1 b2 rest2 hc1 hc2 hov hsur
    subst h
    have hb1 : b1 < 256 := hb b1 (by simp)
    have hb2 : b2 < 256 := hb b2 (by simp)
    rw [cp3_bridge] at hov hsur
    exact Or.inr (Or.inr (Or.inl ⟨b1, b2, by omega, by omega, (isCont_iff b1 hb1).mp hc1,
      (isCont_iff b2 hb2).mp hc2, by omega, by omega, rfl⟩))
  case _ =>
    rename_i b1 b2 b3 rest3 hc1 hc2 hc3 hov hhi
    subst h
    have hb1 : b1 < 256 := hb b1 (by simp)
    have hb2 : b2 < 256 := hb b2 (by simp)
    have hb3 : b3 < 256 := hb b3 (by simp)
    rw [cp4_bridge] at hov hhi
    exact Or.inr (Or.inr (Or.inr ⟨b1, b2, b3, by omega, by omega, (isCont_iff b1 hb1).mp hc1,
      (isCont_iff b2 hb2).mp hc2, (isCont_iff b3 hb3).mp hc3, by omega, by omega, rfl⟩))

theorem utf8Step_one {b0 : Nat} (rest : List Nat) (h : b0 ≤ 0x7F) :
    utf8Step b0 rest = some rest := by
  unfold utf8Step
  rw [if_pos h]

theorem utf8Step_two {b0 b1 : Nat} (rest : List Nat) (hb1 : b1 < 256)
    (h1 : 0xC2 ≤ b0) (h2 : b0 ≤ 0xDF) (hc : IsCont b1) :
    utf8Step b0 (b1 :: rest) = some rest := by
  have h7 : ¬ b0 ≤ 0x7F := by omega
  have hcont : b1 &&& 0xC0 = 0x80 := (isCont_iff b1 hb1).mpr hc
  have hov : ¬ ((b0 &&& 0x1F) <<< 6) ||| (b1 &&& 0x3F) < 0x80 := by
    rw [cp2_bridge]
    unfold cp2
    omega
  simp only [utf8Step, h7, h1, h2, hcont, hov, and_self, if_true, if_false,
    ite_true, ite_false]

theorem utf8Step_three {b0 b1 b2 : Nat} (rest : List Nat) (hb1 : b1 < 256)
    (hb2 : b2 < 256) (h1 : 0xE0 ≤ b0) (h2 : b0 ≤ 0xEF) (hc1 : IsCont b1)
    (hc2 : IsCont b2) (hlo : 0x800 ≤ cp3 b0 b1 b2)
    (hs : cp3 b0 b1 b2 < 0xD800 ∨ 0xDFFF < cp3 b0 b1 b2) :
    utf8Step b0 (b1 :: b2 :: rest) = some rest := by
  have h7 : ¬ b0 ≤ 0x7F := by omega
  have hnC : ¬ (0xC2 ≤ b0 ∧ b0 ≤ 0xDF) := by omega
  have hcont1 : b1 &&& 0xC0 = 0x80 := (isCont_iff b1 hb1).mpr hc1
  have hcont2 : b2 &&& 0xC0 = 0x80 := (isCont_iff b2 hb2).mpr hc2
  have hov : ¬ ((((b0 &&& 0x0F) <<< 6) ||| (b1 &&& 0x3F)) <<< 6) ||| (b2 &&& 0x3F) < 0x800 := by
    rw [cp3_bridge]
    omega
  have hsur : ¬ (0xD800 ≤ ((((b0 &&& 0x0F) <<< 6) ||| (b1 &&& 0x3F)) <<< 6) ||| (b2 &&& 0x3F) ∧
      ((((b0 &&& 0x0F) <<< 6) ||| (b1 &&& 0x3F)) <<< 6) ||| (b2 &&& 0x3F) ≤ 0xDFFF) := by
    rw [cp3_bridge]
    omega
  simp only [utf8Step, h7, hnC, h1, h2, hcont1, hcont2, hov, hsur, and_self,
    if_true, if_false, ite_true, ite_false]

theorem utf8Step_four {b0 b1 b2 b3 : Nat} (rest : List Nat) (hb1 : b1 < 256)
    (hb2 : b2 < 256) (hb3 : b3 < 256) (h1 : 0xF0 ≤ b0) (h2 : b0 ≤ 0xF4)
    (hc1 : IsCont b1) (hc2 : IsCont b2) (hc3 : IsCont b3)
    (hlo : 0x10000 ≤ cp4 b0 b1 b2 b3) (hhi : cp4 b0 b1 b2 b3 ≤ 0x10FFFF) :
    utf8Step b0 (b1 :: b2 :: b3 :: rest) = some rest := by
  have h7 : ¬ b0 ≤ 0x7F := by omega
  have hnC : ¬ (0xC2 ≤ b0 ∧ b0 ≤ 0xDF) := by omega
  have hnE : ¬ (0xE0 ≤ b0 ∧ b0 ≤ 0xEF) := by omega
  have hcont1 : b1 &&& 0xC0 = 0x80 := (isCont_iff b1 hb1).mpr hc1
  have hcont2 : b2 &&& 0xC0 = 0x80 := (isCont_iff b2 hb2).mpr hc2
  have hcont3 : b3 &&& 0xC0 = 0x80 := (isCont_iff b3 hb3).mpr hc3
  have hov : ¬ ((((((b0 &&& 0x07) <<< 6) ||| (b1 &&& 0x3F)) <<< 6) ||| (b2 &&& 0x3F)) <<< 6) |||
      (b3 &&& 0x3F) < 0x10000 := by
    rw [cp4_bridge]
    omega
  have hhi' : ¬ 0x10FFFF <
      ((((((b0 &&& 0x07) <<< 6) ||| (b1 &&& 0x3F)) <<< 6) ||| (b2 &&& 0x3F)) <<< 6) |||
      (b3 &&& 0x3F) := by
    rw [cp4_bridge]
    omega
  simp only [utf8Step, h7, hnC, hnE, h1, h2, hcont1, hcont2, hcont3, hov, hhi',
    and_self, if_true, if_false, ite_true, ite_false]

/-! ### The validator agrees with RFC 3629 well-formedness -/

theorem utf8_sound : ∀ bs : List Nat, (∀ b ∈ bs, b < 256) →
    utf8ValidBytes bs = true → Utf8WF bs := by
  intro bs
  induction bs using utf8ValidBytes.induct with
  | case1 =>
    intro _ _
    exact Utf8WF.nil
  | case2 b0 rest rest1 hstep ih =>
    intro hb hv
    have hb0 : b0 < 256 := hb b0 (by simp)
    have hbr : ∀ b ∈ rest, b < 256 := fun b hm => hb b (by simp [hm])
    have hv1 : utf8ValidBytes rest1 = true := by
      unfold utf8ValidBytes at hv
      rw [hstep] at hv
      simpa using hv
    rcases utf8Step_cases hb0 hbr hstep with
      ⟨h7, heq⟩ | ⟨b1, h1, h2, hc, hcp, heq⟩ |
      ⟨b1, b2, h1, h2, hc1, hc2, hlo, hs, heq⟩ |
      ⟨b1, b2, b3, h1, h2, hc1, hc2, hc3, hlo, hhi, heq⟩
    · subst heq
      exact Utf8WF.one h7 (ih hbr hv1)
    · subst heq
      exact Utf8WF.two h1 h2 hc hcp (ih (fun b hm => hbr b (by simp [hm])) hv1)
    · subst heq
      exact Utf8WF.three h1 h2 hc1 hc2 hlo hs (ih (fun b hm => hbr b (by simp [hm])) hv1)
    · subst heq
      exact Utf8WF.four h1 h2 hc1 hc2 hc3 hlo hhi (ih (fun b hm => hbr b (by simp [hm])) hv1)
  | case3 b0 rest hstep =>
    intro hb hv
    exfalso
    unfold utf8ValidBytes at hv
    rw [hstep] at hv
    simp at hv

theorem utf8_complete : ∀ {bs : List Nat}, Utf8WF bs → (∀ b ∈ bs, b < 256) →
    utf8ValidBytes bs = true := by
  intro bs hwf
  induction hwf with
  | nil =>
    intro _
    simp [utf8ValidBytes]
  | one h7 hr ih =>
    intro hb
    rename_i b rest
    unfold utf8ValidBytes
    rw [utf8Step_one rest h7]
    exact ih fun x hm => hb x (by simp [hm])
  | two h1 h2 hc hcp hr ih =>
    intro hb
    rename_i b0 b1 rest
    unfold utf8ValidBytes
    rw [utf8Step_two rest (hb b1 (by simp)) h1 h2 hc]
    exact ih fun x hm => hb x (by simp [hm])
  | three h1 h2 hc1 hc2 hlo hs hr ih =>
    intro hb
    rename_i b0 b1 b2 rest
    unfold utf8ValidBytes
    rw [utf8Step_three rest (hb b1 (by simp)) (hb b2 (by simp)) h1 h2 hc1 hc2 hlo hs]
    exact ih fun x hm => hb x (by simp [hm])
  | four h1 h2 hc1 hc2 hc3 hlo hhi hr ih =>
    intro hb
    rename_i b0 b1 b2 b3 rest
    unfold utf8ValidBytes
    rw [utf8Step_four rest (hb b1 (by simp)) (hb b2 (by simp)) (hb b3 (by simp))
      h1 h2 hc1 hc2 hc3 hlo hhi]
    exact ih fun x hm => hb x (by simp [hm])

theorem utf8ValidBytes_iff_wf {bs : List Nat} (hb : ∀ b ∈ bs, b < 256) :
    utf8ValidBytes bs = true ↔ Utf8WF bs :=
  ⟨utf8_sound bs hb, fun h => utf8_complete h hb⟩

/-! ### The `str_strip_crlf` loop -/

theorem stripCrlfLoop_spec : ∀ (n : Nat) (block block' : List Nat) (n' : Nat),
    stripCrlfLoop block n = (block', n') →
    n' ≤ n ∧ block'.length = block.length ∧
    block'.take n' = block.take n' ∧
    (∀ b ∈ (block.take n).drop n', b = 10 ∨ b = 13) ∧
    (n' = 0 ∨ ¬(block'.getD (n' - 1) 0 = 10 ∨ block'.getD (n' - 1) 0 = 13)) ∧
    (n' = n → block' = block) ∧
    (n' < n → block'[n']? = some 0) := by
  intro n
  induction n with
  | zero =>
    intro block block' n' h
    unfold stripCrlfLoop at h
    injection h with hB hN
    subst hB
    subst hN
    refine ⟨Nat.le_refl _, rfl, rfl, ?_, Or.inl rfl, fun _ => rfl, fun hlt => absurd hlt (by omega)⟩
    intro b hb
    simp at hb
  | succ n ih =>
    intro block block' n' h
    unfold stripCrlfLoop at h
    by_cases hc : block.getD n 0 = 10 ∨ block.getD n 0 = 13
    · rw [if_pos hc] at h
      have hnlen : n < block.length := by
        rcases Nat.lt_or_ge n block.length with hl | hl
        · exact hl
        · exfalso
          have h0 : block.getD n 0 = 0 := by
            simp [List.getD_eq_getElem?_getD, List.getElem?_eq_none hl]
          omega
      obtain ⟨h1, h2, h3, h4, h5, h6, h7⟩ := ih (block.set n 0) block' n' h
      have hset_take : ∀ m, m ≤ n → (block.set n 0).take m = block.take m := by
        intro m hm
        rw [List.set_take]
        apply List.set_eq_of_length_le
        simp only [List.length_take]
        omega
      refine ⟨Nat.le_succ_of_le h1, by rw [h2, List.length_set], ?_, ?_, h5, ?_, ?_⟩
      · rw [h3, hset_take n' h1]
      · intro b hb
        rw [List.take_succ] at hb
        have hdrop : ((block.take n ++ block[n]?.toList).drop n') =
            (block.take n).drop n' ++ block[n]?.toList := by
          apply List.drop_append_of_le_length
          simp only [List.length_take]
          omega
        rw [hdrop] at hb
        rcases List.mem_append.mp hb with hb1 | hb2
        · exact h4 b (by rwa [hset_take n (Nat.le_refl n)] at h4 ⊢)
        · have : block[n]? = some (block.getD n 0) := by
            simp [List.getD_eq_getElem?_getD, List.getElem?_eq_getElem hnlen]
          rw [this] at hb2
          simp at hb2
          subst hb2
          simpa using hc
      · intro he
        omega
      · intro _
        rcases Nat.lt_or_ge n' n with hlt | hge
        · exact h7 hlt
        · have hn'n : n' = n := Nat.le_antisymm h1 hge
          subst hn'n
          rw [h6 rfl]
          exact List.getElem?_set_self (by simpa using hnlen)
    · rw [if_neg hc] at h
      injection h with hB hN
      subst hB
      subst hN
      refine ⟨Nat.le_refl _, rfl, rfl, ?_, Or.inr (by simpa using hc), fun _ => rfl,
        fun hlt => absurd hlt (by omega)⟩
      intro b hb
      rw [List.drop_eq_nil_of_le (by simp only [List.length_take]; omega)] at hb
      simp at hb

theorem stripCrlfLoop_fix {block : List Nat} {n : Nat}
    (h : n = 0 ∨ ¬(block.getD (n - 1) 0 = 10 ∨ block.getD (n - 1) 0 = 13)) :
    stripCrlfLoop block n = (block, n) := by
  cases n with
  | zero => rfl
  | succ m =>
    unfold stripCrlfLoop
    rcases h with h | h
    · exact absurd h (by omega)
    · rw [if_neg (by simpa using h)]

theorem dropTrailingCrlf_eq {p s : List Nat}
    (hs : ∀ b ∈ s, b = 10 ∨ b = 13)
    (hp : ∀ x, p.getLast? = some x → x ≠ 10 ∧ x ≠ 13) :
    dropTrailingCrlf (p ++ s) = p := by
  unfold dropTrailingCrlf
  rw [List.reverse_append,
    List.dropWhile_append_of_pos (fun a ha => by
      rcases hs a (List.mem_reverse.mp ha) with h | h <;> simp [h])]
  cases hpr : p.reverse with
  | nil =>
    have hpnil : p = [] := by simpa using congrArg List.reverse hpr
    simp [hpnil]
  | cons x xs =>
    have hx : p.getLast? = some x := by
      rw [← List.head?_reverse, hpr]
      rfl
    obtain ⟨h10, h13⟩ := hp x hx
    rw [List.dropWhile_cons, if_neg (by simp [h10, h13])]
    rw [← hpr, List.reverse_reverse]

/-! ### `str_remove_utf8_bom` and idempotence helpers -/

theorem take_three_eq {block : List Nat} (h3 : 3 ≤ block.length) (a b c : Nat) :
    block.take 3 = [a, b, c] ↔
      block.getD 0 0 = a ∧ block.getD 1 0 = b ∧ block.getD 2 0 = c := by
  rcases block with _ | ⟨x, _ | ⟨y, _ | ⟨z, rest⟩⟩⟩
  · simp at h3
  · simp at h3
  · simp at h3
  · simp [List.getD_eq_getElem?_getD, and_assoc]

theorem bom_neg {block : List Nat} {tl tc : Nat}
    (h : tl < 3 ∨ ¬(block.getD 0 0 = 0xEF ∧ block.getD 1 0 = 0xBB ∧ block.getD 2 0 = 0xBF)) :
    str_remove_utf8_bom (some ⟨some block, tl, tc⟩) = (false, some ⟨some block, tl, tc⟩) := by
  simp only [str_remove_utf8_bom]
  rcases h with h | h
  · rw [if_pos h]
  · by_cases h3 : tl < 3
    · rw [if_pos h3]
    · rw [if_neg h3, if_neg h]

theorem bom_pos {block : List Nat} {tl tc : Nat}
    (hI : Inv ⟨some block, tl, tc⟩) (h3 : 3 ≤ tl)
    (hbom : (block.take tl).take 3 = [0xEF, 0xBB, 0xBF]) :
    ∃ block', str_remove_utf8_bom (some ⟨some block, tl, tc⟩) =
        (true, some ⟨some block', tl - 3, tc⟩) ∧
      block'.take (tl - 3) = (block.take tl).drop 3 ∧
      block'.length = block.length ∧
      block'[tl - 3]? = some 0 := by
  obtain ⟨hbl, hlt, hterm⟩ := hI
  simp only at hbl hlt hterm
  have htlb : tl ≤ block.length := by omega
  have hb3 : block.take 3 = [0xEF, 0xBB, 0xBF] := by
    rw [← hbom, List.take_take, Nat.min_eq_left h3]
  obtain ⟨hg0, hg1, hg2⟩ := (take_three_eq (by omega) _ _ _).mp hb3
  have hres : str_remove_utf8_bom (some ⟨some block, tl, tc⟩) =
      (true, some ⟨some ((writeAt block 0 ((block.drop 3).take (tl - 3))).set (tl - 3) 0),
        tl - 3, tc⟩) := by
    simp only [str_remove_utf8_bom]
    rw [if_neg (by omega), if_pos ⟨hg0, hg1, hg2⟩]
  have hsrc : ((block.drop 3).take (tl - 3)).length = tl - 3 := by
    simp only [List.length_take, List.length_drop]
    omega
  have hw : writeAt block 0 ((block.drop 3).take (tl - 3)) =
      (((block.drop 3).take (tl - 3)) ++ block.drop (tl - 3)).take block.length := by
    simp only [writeAt, List.take_zero, List.nil_append, Nat.zero_add, hsrc]
  have hwlen : (writeAt block 0 ((block.drop 3).take (tl - 3))).length = block.length := by
    rw [hw]
    simp only [List.length_take, List.length_append, List.length_take, List.length_drop]
    omega
  refine ⟨_, hres, ?_, ?_, ?_⟩
  · rw [List.set_take]
    rw [List.set_eq_of_length_le (by simp only [List.length_take]; omega)]
    rw [hw, List.take_take, Nat.min_eq_left (by omega)]
    rw [List.take_left' hsrc]
    rw [List.take_drop]
    have h33 : 3 + (tl - 3) = tl := by omega
    rw [h33]
  · rw [List.length_set, hwlen]
  · have hlt' : tl - 3 < (writeAt block 0 ((block.drop 3).take (tl - 3))).length := by
      rw [hwlen]
      omega
    exact List.getElem?_set_self hlt'

theorem str_strip_crlf_idem (s : Option String) :
    str_strip_crlf (str_strip_crlf s) = str_strip_crlf s := by
  match s with
  | none => rfl
  | some ⟨none, tl, tc⟩ => rfl
  | some ⟨some block, tl, tc⟩ =>
    by_cases h0 : tl = 0
    · subst h0
      rfl
    · rcases hr : stripCrlfLoop block tl with ⟨block', n'⟩
      obtain ⟨h1, h2, h3, h4, h5, h6, h7⟩ := stripCrlfLoop_spec tl block block' n' hr
      have hres : str_strip_crlf (some ⟨some block, tl, tc⟩) = some ⟨some block', n', tc⟩ := by
        simp only [str_strip_crlf]
        rw [if_neg h0, hr]
      rw [hres]
      by_cases hz : n' = 0
      · subst hz
        rfl
      · have hfix := stripCrlfLoop_fix (Or.inr (h5.resolve_left hz))
        simp only [str_strip_crlf]
        rw [if_neg hz, hfix]

/-! ### `str_from_cstr`, `str_data` and `str_plus` -/

theorem content_of_none {t : String} (h : t.data = none) : content t = [] := by
  unfold content
  rw [h]
  simp

theorem takeWhile_ne_zero_spec (p : List Nat) (hp : (0 : Nat) ∈ p) :
    p.take (cstrlen p + 1) = p.takeWhile (fun b => b != 0) ++ [0] ∧
    cstrlen p < p.length := by
  induction p with
  | nil => cases hp
  | cons a t ih =>
    by_cases ha : a = 0
    · subst ha
      refine ⟨by simp [cstrlen], by simp [cstrlen]⟩
    · have ht : (0 : Nat) ∈ t := by
        rcases List.mem_cons.mp hp with h | h
        · exact absurd h.symm ha
        · exact h
      obtain ⟨ih1, ih2⟩ := ih ht
      have ha' : (a != 0) = true := by simpa using ha
      constructor
      · simp only [cstrlen] at ih1
        simp only [cstrlen, List.takeWhile_cons, ha', if_true, List.length_cons,
          List.take_succ_cons, ih1, List.cons_append]
      · simp only [cstrlen, List.takeWhile_cons, ha', if_true, List.length_cons]
        simp only [cstrlen] at ih2
        omega

theorem str_from_cstr_true_spec (p : List Nat) (hp : (0 : Nat) ∈ p) :
    content (str_from_cstr true (some p)) = p.takeWhile (fun b => b != 0) ∧
    Inv (str_from_cstr true (some p)) ∧
    (str_from_cstr true (some p)).data ≠ none ∧
    (str_from_cstr true (some p)).len = cstrlen p := by
  obtain ⟨h1, h2⟩ := takeWhile_ne_zero_spec p hp
  refine ⟨?_, ⟨?_, ?_, ?_⟩, by simp [str_from_cstr], rfl⟩
  · show (p.take (cstrlen p + 1)).take (cstrlen p) = p.takeWhile (fun b => b != 0)
    rw [h1]
    exact List.take_left' rfl
  · show (p.take (cstrlen p + 1)).length = cstrlen p + 1
    simp only [List.length_take]
    omega
  · show cstrlen p < cstrlen p + 1
    omega
  · show (p.take (cstrlen p + 1))[cstrlen p]? = some 0
    rw [h1, List.getElem?_append_right (by simp [cstrlen])]
    simp [cstrlen]

theorem takeWhile_take_of_stop {l : List Nat} {n : Nat} (hn : l[n]? = some 0) :
    l.takeWhile (fun b => b != 0) = (l.take n).takeWhile (fun b => b != 0) := by
  induction l generalizing n with
  | nil => simp
  | cons a t ih =>
    cases n with
    | zero =>
      have ha : a = 0 := by simpa using hn
      subst ha
      simp
    | succ m =>
      have hm : t[m]? = some 0 := by simpa using hn
      by_cases ha : a = 0
      · subst ha
        simp
      · have ha' : (a != 0) = true := by simpa using ha
        simp [List.takeWhile_cons, ha', ih hm]

theorem str_data_spec (t : String) (ht : Inv t) :
    (0 : Nat) ∈ str_data (some t) ∧
    (str_data (some t)).takeWhile (fun b => b != 0) =
      (content t).takeWhile (fun b => b != 0) := by
  obtain ⟨d, tl, tc⟩ := t
  cases d with
  | none => exact ⟨by simp [str_data], by simp [str_data, content]⟩
  | some block =>
    obtain ⟨hbl, hlt, hterm⟩ := ht
    simp only at hbl hlt hterm
    constructor
    · show (0 : Nat) ∈ block
      exact List.mem_iff_getElem?.mpr ⟨tl, hterm⟩
    · show block.takeWhile (fun b => b != 0) = (block.take tl).takeWhile (fun b => b != 0)
      exact takeWhile_take_of_stop hterm

theorem str_data_nostorage {s : Option String} (h : NoStorage s) : str_data s = [0] := by
  match s with
  | none => rfl
  | some t =>
    show (match t.data with | none => [0] | some block => block) = [0]
    rw [show t.data = none from h]

theorem str_plus_data_spec (t1 t2 : String) (b1 b2 : List Nat)
    (hd1 : t1.data = some b1) (hd2 : t2.data = some b2)
    (h1 : Inv t1) (h2 : Inv t2) :
    str_plus true (some t1) (some t2) =
      ⟨some (b1.take t1.len ++ b2.take (t2.len + 1)), t1.len + t2.len, t1.len + t2.len + 1⟩ ∧
    content (str_plus true (some t1) (some t2)) = content t1 ++ content t2 ∧
    Inv (str_plus true (some t1) (some t2)) := by
  obtain ⟨d1, l1, c1⟩ := t1
  obtain ⟨d2, l2, c2⟩ := t2
  simp only at hd1 hd2
  subst hd1
  subst hd2
  obtain ⟨hbl1, hlt1, hterm1⟩ := h1
  obtain ⟨hbl2, hlt2, hterm2⟩ := h2
  simp only at hbl1 hlt1 hterm1 hbl2 hlt2 hterm2
  have hres : str_plus true (some ⟨some b1, l1, c1⟩) (some ⟨some b2, l2, c2⟩) =
      ⟨some (b1.take l1 ++ b2.take (l2 + 1)), l1 + l2, l1 + l2 + 1⟩ := rfl
  have hlen1 : (b1.take l1).length = l1 := by
    simp only [List.length_take]
    omega
  have hcontent : content ⟨some (b1.take l1 ++ b2.take (l2 + 1)), l1 + l2, l1 + l2 + 1⟩ =
      b1.take l1 ++ b2.take l2 := by
    show (b1.take l1 ++ b2.take (l2 + 1)).take (l1 + l2) = b1.take l1 ++ b2.take l2
    have hidx : l1 + l2 = (b1.take l1).length + l2 := by rw [hlen1]
    rw [hidx, List.take_append, List.take_take, Nat.min_eq_left (by omega)]
  refine ⟨hres, ?_, ?_⟩
  · rw [hres, hcontent]
    rfl
  · rw [hres]
    refine ⟨?_, ?_, ?_⟩
    · show (b1.take l1 ++ b2.take (l2 + 1)).length = l1 + l2 + 1
      simp only [List.length_append, List.length_take]
      omega
    · show l1 + l2 < l1 + l2 + 1
      omega
    · show (b1.take l1 ++ b2.take (l2 + 1))[l1 + l2]? = some 0
      rw [List.getElem?_append_right (by rw [hlen1]; omega), hlen1]
      have hl2 : l1 + l2 - l1 = l2 := by omega
      rw [hl2, List.getElem?_take_of_lt (by omega)]
      exact hterm2

theorem str_plus_left_nostorage (s1 : Option String) (s2 : Option String)
    (h : NoStorage s1) :
    str_plus true s1 s2 = str_from_cstr true (some (str_data s2)) := by
  match s1 with
  | none => rfl
  | some ⟨d1, l1, c1⟩ =>
    have hd : d1 = none := h
    subst hd
    rfl

theorem str_plus_right_nostorage (t1 : String) (b1 : List Nat) (s2 : Option String)
    (hd1 : t1.data = some b1) (h : NoStorage s2) :
    str_plus true (some t1) s2 = str_from_cstr true (some (str_data (some t1))) := by
  obtain ⟨d1, l1, c1⟩ := t1
  simp only at hd1
  subst hd1
  match s2 with
  | none => rfl
  | some ⟨d2, l2, c2⟩ =>
    have hd : d2 = none := h
    subst hd
    rfl

theorem invOpt_some {t : String} (h : Inv t) : InvOpt (some t) := by
  intro t' ht'
  injection ht' with e
  exact e ▸ h

theorem inv_plus (s1 s2 : Option String) (h1 : InvOpt s1) (h2 : InvOpt s2) :
    Inv (str_plus true s1 s2) ∧ (str_plus true s1 s2).data ≠ none := by
  have hfrom : ∀ s : Option String, InvOpt s →
      Inv (str_from_cstr true (some (str_data s))) ∧
      (str_from_cstr true (some (str_data s))).data ≠ none := by
    intro s hs
    match s with
    | none =>
      obtain ⟨-, hI, hd, -⟩ := str_from_cstr_true_spec (str_data none) (by simp [str_data])
      exact ⟨hI, hd⟩
    | some t =>
      obtain ⟨h0, -⟩ := str_data_spec t (hs t rfl)
      obtain ⟨-, hI, hd, -⟩ := str_from_cstr_true_spec _ h0
      exact ⟨hI, hd⟩
  match s1, s2 with
  | none, s2 => exact hfrom s2 h2
  | some ⟨none, l1, c1⟩, s2 => exact hfrom s2 h2
  | some ⟨some b1, l1, c1⟩, none => exact hfrom (some ⟨some b1, l1, c1⟩) h1
  | some ⟨some b1, l1, c1⟩, some ⟨none, l2, c2⟩ => exact hfrom (some ⟨some b1, l1, c1⟩) h1
  | some ⟨some b1, l1, c1⟩, some ⟨some b2, l2, c2⟩ =>
    obtain ⟨heq, -, hI⟩ := str_plus_data_spec _ _ b1 b2 rfl rfl (h1 _ rfl) (h2 _ rfl)
    refine ⟨hI, ?_⟩
    rw [heq]
    simp

theorem takeWhile_of_zerofree {l : List Nat} (hz : ∀ x ∈ l, x ≠ 0) :
    l.takeWhile (fun b => b != 0) = l :=
  List.takeWhile_eq_self_iff.mpr fun x hx => by simpa using hz x hx

theorem plus_zerofree (a b : String) (ha : Inv a) (hb : Inv b)
    (za : ∀ x ∈ content a, x ≠ 0) (zb : ∀ x ∈ content b, x ≠ 0) :
    content (str_plus true (some a) (some b)) = content a ++ content b := by
  obtain ⟨da, la, ca⟩ := a
  obtain ⟨db_, lb, cb⟩ := b
  cases da with
  | none =>
    rw [str_plus_left_nostorage _ _ (by exact rfl)]
    cases db_ with
    | none =>
      rw [str_data_nostorage (s := some ⟨none, lb, cb⟩) rfl]
      obtain ⟨hc, -⟩ := str_from_cstr_true_spec [0] (by simp)
      rw [hc]
      simp [content]
    | some bb =>
      obtain ⟨h0, htw⟩ := str_data_spec ⟨some bb, lb, cb⟩ hb
      obtain ⟨hc, -⟩ := str_from_cstr_true_spec _ h0
      rw [hc, htw, takeWhile_of_zerofree zb]
      simp [content]
  | some ba =>
    cases db_ with
    | none =>
      rw [str_plus_right_nostorage _ ba (some ⟨none, lb, cb⟩) rfl (by exact rfl)]
      obtain ⟨h0, htw⟩ := str_data_spec ⟨some ba, la, ca⟩ ha
      obtain ⟨hc, -⟩ := str_from_cstr_true_spec _ h0
      rw [hc, htw, takeWhile_of_zerofree za]
      simp [content]
    | some bb =>
      exact (str_plus_data_spec _ _ ba bb rfl rfl ha hb).2.1

/-! ### Invariant preservation -/

theorem inv_len_cap {s : String} (h : Inv s) : s.len < s.cap ∨ (s.len = 0 ∧ s.cap = 0) := by
  obtain ⟨d, l, c⟩ := s
  cases d with
  | none =>
    obtain ⟨h1, h2⟩ := h
    exact Or.inr ⟨h1, h2⟩
  | some block =>
    obtain ⟨-, h2, -⟩ := h
    exact Or.inl h2

theorem inv_block_length {t : String} {b : List Nat} (h : Inv t) (hd : t.data = some b) :
    b.length = t.cap := by
  obtain ⟨d, l, c⟩ := t
  simp only at hd
  subst hd
  exact h.1

theorem inv_reserve (s : String) (n : Nat) (alloc : Bool) (fresh : Nat → Nat)
    (h : Inv s) (hd : s.data ≠ none) :
    Inv (str_reserve_s alloc fresh s n) := by
  obtain ⟨d, l, c⟩ := s
  cases d with
  | none => exact absurd rfl hd
  | some block =>
    obtain ⟨h1, h2, h3⟩ := h
    simp only at h1 h2 h3
    by_cases hgt : n > ({ data := some block, len := l, cap := c } : String).cap
    · cases alloc with
      | false =>
        have hres : str_reserve_s false fresh ⟨some block, l, c⟩ n = ⟨some block, l, c⟩ := by
          unfold str_reserve_s
          rw [if_pos hgt]
          rfl
        rw [hres]
        exact ⟨h1, h2, h3⟩
      | true =>
        have hres : str_reserve_s true fresh ⟨some block, l, c⟩ n =
            ⟨some (reallocBlock block n fresh), l, n⟩ := by
          unfold str_reserve_s
          rw [if_pos hgt]
          rfl
        rw [hres]
        simp only at hgt
        refine ⟨?_, ?_, ?_⟩
        · show (reallocBlock block n fresh).length = n
          simp only [reallocBlock, List.length_append, List.length_take, List.length_map,
            List.length_range]
          omega
        · show l < n
          omega
        · show (reallocBlock block n fresh)[l]? = some 0
          unfold reallocBlock
          rw [List.getElem?_append_left (by simp only [List.length_take]; omega),
            List.getElem?_take_of_lt (by omega)]
          exact h3
    · have hres : str_reserve_s alloc fresh ⟨some block, l, c⟩ n = ⟨some block, l, c⟩ := by
        unfold str_reserve_s
        rw [if_neg hgt]
      rw [hres]
      exact ⟨h1, h2, h3⟩

theorem reserve_data_some (s : String) (n : Nat) (alloc : Bool) (fresh : Nat → Nat)
    (hd : s.data ≠ none) : (str_reserve_s alloc fresh s n).data ≠ none := by
  unfold str_reserve_s
  by_cases hgt : n > s.cap
  · rw [if_pos hgt]
    cases alloc with
    | false => exact hd
    | true => simp
  · rw [if_neg hgt]
    exact hd

theorem reserve_true_len_cap (s : String) (n : Nat) (fresh : Nat → Nat) :
    (str_reserve_s true fresh s n).len = s.len ∧
    (str_reserve_s true fresh s n).cap = max s.cap n := by
  unfold str_reserve_s
  by_cases hgt : n > s.cap
  · rw [if_pos hgt]
    refine ⟨rfl, ?_⟩
    show n = max s.cap n
    omega
  · rw [if_neg hgt]
    refine ⟨rfl, ?_⟩
    show s.cap = max s.cap n
    omega

theorem inv_push_back (s : String) (c : Nat) (fresh : Nat → Nat) (h : Inv s) :
    InvOpt (str_push_back true fresh (some s) c) := by
  have main : ∀ (s1 : String) (block : List Nat), s1.data = some block →
      block.length = s1.cap → s1.len + 1 < s1.cap → InvOpt (pushBackWrite c s1) := by
    intro s1 block hdd hdl hlt
    obtain ⟨d1, l1, c1⟩ := s1
    simp only at hdd hdl hlt
    subst hdd
    intro t' ht'
    injection ht' with e
    subst e
    refine ⟨?_, ?_, ?_⟩
    · show ((block.set l1 c).set (l1 + 1) 0).length = c1
      simp [hdl]
    · show l1 + 1 < c1
      exact hlt
    · show ((block.set l1 c).set (l1 + 1) 0)[l1 + 1]? = some 0
      refine List.getElem?_set_self ?_
      simp only [List.length_set, hdl]
      omega
  show InvOpt (pushBackWrite c (if s.len + 1 ≥ s.cap then
      str_reserve_s true fresh s (if s.cap = 0 then 2 else s.cap * 2) else s))
  rcases inv_len_cap h with hlc | ⟨hl0, hc0⟩
  · have hd : s.data ≠ none := by
      obtain ⟨d, l, c⟩ := s
      cases d with
      | none =>
        obtain ⟨-, h2⟩ := h
        simp only at h2 hlc
        omega
      | some block => simp
    by_cases hge : s.len + 1 ≥ s.cap
    · rw [if_pos hge]
      have hI1 := inv_reserve s (if s.cap = 0 then 2 else s.cap * 2) true fresh h hd
      have hd1 := reserve_data_some s (if s.cap = 0 then 2 else s.cap * 2) true fresh hd
      obtain ⟨b1, hb1⟩ := Option.ne_none_iff_exists'.mp hd1
      obtain ⟨hl, hc⟩ := reserve_true_len_cap s (if s.cap = 0 then 2 else s.cap * 2) fresh
      refine main _ b1 hb1 (inv_block_length hI1 hb1) ?_
      rw [hl, hc]
      by_cases hcz : s.cap = 0
      · rw [if_pos hcz]
        omega
      · rw [if_neg hcz]
        omega
    · rw [if_neg hge]
      obtain ⟨b1, hb1⟩ := Option.ne_none_iff_exists'.mp hd
      exact main s b1 hb1 (inv_block_length h hb1) (by omega)
  · obtain ⟨d, l, cc⟩ := s
    simp only at hl0 hc0
    subst hl0
    subst hc0
    cases d with
    | some block =>
      obtain ⟨-, h2, -⟩ := h
      have h2x : (0 : Nat) < 0 := h2
      exact absurd h2x (by omega)
    | none =>
      intro t' ht'
      have ht2 : some (⟨some [c, 0], 1, 2⟩ : String) = some t' := ht'
      injection ht2 with e
      exact e ▸ ⟨rfl, (by omega : (1 : Nat) < 2), rfl⟩

theorem writeAt_length {block src : List Nat} {off : Nat}
    (h : off + src.length ≤ block.length) :
    (writeAt block off src).length = block.length := by
  simp only [writeAt, List.length_take, List.length_append, List.length_drop]
  omega

theorem writeAt_getElem {block src : List Nat} {off i : Nat}
    (h : off + src.length ≤ block.length) (hi : i < src.length) :
    (writeAt block off src)[off + i]? = src[i]? := by
  unfold writeAt
  have hto : (block.take off).length = off := by
    simp only [List.length_take]
    omega
  rw [List.getElem?_take_of_lt (by omega),
    List.getElem?_append_left (by rw [List.length_append, hto]; omega),
    List.getElem?_append_right (by rw [hto]; omega), hto]
  have hoi : off + i - off = i := by omega
  rw [hoi]

theorem inv_concatWrite (sblock : List Nat) (slen : Nat) (d1 : String) (dblock : List Nat)
    (hdd : d1.data = some dblock) (hdl : dblock.length = d1.cap)
    (hsl : slen + 1 ≤ sblock.length) (hterm : sblock[slen]? = some 0)
    (hcap : d1.len + slen + 1 ≤ d1.cap) :
    InvOpt (concatWrite sblock slen d1) := by
  obtain ⟨dd, ld, cd⟩ := d1
  simp only at hdd hdl hcap
  subst hdd
  intro t' ht'
  injection ht' with e
  subst e
  have hsrc : (sblock.take (slen + 1)).length = slen + 1 := by
    simp only [List.length_take]
    omega
  have hbound : ld + (sblock.take (slen + 1)).length ≤ dblock.length := by
    rw [hsrc, hdl]
    omega
  refine ⟨?_, ?_, ?_⟩
  · show (writeAt dblock ld (sblock.take (slen + 1))).length = cd
    rw [writeAt_length hbound, hdl]
  · show ld + slen < cd
    omega
  · show (writeAt dblock ld (sblock.take (slen + 1)))[ld + slen]? = some 0
    have hw := writeAt_getElem hbound
      (show slen < (sblock.take (slen + 1)).length by rw [hsrc]; omega)
    rw [hw, List.getElem?_take_of_lt (by omega)]
    exact hterm

theorem inv_concat (d t : String) (fresh : Nat → Nat) (hd : Inv d) (ht : Inv t) :
    InvOpt (str_concat true fresh (some d) (some t)) := by
  obtain ⟨dt, lt_, ct⟩ := t
  cases dt with
  | none =>
    intro t' ht'
    injection ht' with e
    exact e ▸ hd
  | some sblock =>
    obtain ⟨htb, htl, htt⟩ := ht
    simp only at htb htl htt
    show InvOpt (concatWrite sblock lt_ (if d.len + lt_ + 1 > d.cap then
        str_reserve_s true fresh d (d.len + lt_ + 1) else d))
    rcases inv_len_cap hd with hlc | ⟨hl0, hc0⟩
    · have hdne : d.data ≠ none := by
        obtain ⟨dd, ldd, cdd⟩ := d
        cases dd with
        | none =>
          obtain ⟨-, h2⟩ := hd
          simp only at h2 hlc
          omega
        | some b => simp
      by_cases hgt : d.len + lt_ + 1 > d.cap
      · rw [if_pos hgt]
        have hI1 := inv_reserve d (d.len + lt_ + 1) true fresh hd hdne
        have hd1 := reserve_data_some d (d.len + lt_ + 1) true fresh hdne
        obtain ⟨b1, hb1⟩ := Option.ne_none_iff_exists'.mp hd1
        obtain ⟨hl, hc⟩ := reserve_true_len_cap d (d.len + lt_ + 1) fresh
        refine inv_concatWrite _ _ _ b1 hb1 (inv_block_length hI1 hb1) (by omega) htt ?_
        rw [hl, hc]
        omega
      · rw [if_neg hgt]
        obtain ⟨b1, hb1⟩ := Option.ne_none_iff_exists'.mp hdne
        exact inv_concatWrite _ _ _ b1 hb1 (inv_block_length hd hb1) (by omega) htt (by omega)
    · obtain ⟨dd, ldd, cdd⟩ := d
      simp only at hl0 hc0
      subst hl0
      subst hc0
      cases dd with
      | some b =>
        obtain ⟨-, h2, -⟩ := hd
        have h2x : (0 : Nat) < 0 := h2
        exact absurd h2x (by omega)
      | none =>
        have hcond : (⟨none, 0, 0⟩ : String).len + lt_ + 1 > (⟨none, 0, 0⟩ : String).cap := by
          show 0 + lt_ + 1 > 0
          omega
        rw [if_pos hcond]
        have hres : str_reserve_s true fresh ⟨none, 0, 0⟩
            ((⟨none, 0, 0⟩ : String).len + lt_ + 1) =
            ⟨some (reallocBlock [] (0 + lt_ + 1) fresh), 0, 0 + lt_ + 1⟩ := by
          unfold str_reserve_s
          rw [if_pos hcond]
          rfl
        rw [hres]
        refine inv_concatWrite _ _ _ (reallocBlock [] (0 + lt_ + 1) fresh) rfl ?_
          (by omega) htt ?_
        · show (reallocBlock [] (0 + lt_ + 1) fresh).length = 0 + lt_ + 1
          simp only [reallocBlock, List.take_nil, List.length_append, List.length_nil,
            List.length_map, List.length_range]
          omega
        · show (0 : Nat) + lt_ + 1 ≤ 0 + lt_ + 1
          omega

theorem inv_bom (t : String) (h : Inv t) : InvOpt ((str_remove_utf8_bom (some t)).2) := by
  obtain ⟨d, tl, tc⟩ := t
  cases d with
  | none =>
    intro t' ht'
    injection ht' with e
    exact e ▸ h
  | some block =>
    have hI : Inv ⟨some block, tl, tc⟩ := h
    obtain ⟨hb1, hb2, hb3⟩ := h
    simp only at hb1 hb2 hb3
    by_cases hc : 3 ≤ tl ∧ block.getD 0 0 = 0xEF ∧ block.getD 1 0 = 0xBB ∧
        block.getD 2 0 = 0xBF
    · have hbom : (block.take tl).take 3 = [0xEF, 0xBB, 0xBF] := by
        rw [List.take_take, Nat.min_eq_left (by omega)]
        exact (take_three_eq (by omega) _ _ _).mpr hc.2
      obtain ⟨block', hres, htake, hlen', hterm'⟩ := bom_pos hI hc.1 hbom
      rw [hres]
      intro t' ht'
      have ht2 : some (⟨some block', tl - 3, tc⟩ : String) = some t' := ht'
      injection ht2 with e
      refine e ▸ ⟨?_, ?_, ?_⟩
      · show block'.length = tc
        rw [hlen', hb1]
      · show tl - 3 < tc
        omega
      · exact hterm'
    · have hneg : tl < 3 ∨ ¬(block.getD 0 0 = 0xEF ∧ block.getD 1 0 = 0xBB ∧
          block.getD 2 0 = 0xBF) := by
        by_cases h3 : tl < 3
        · exact Or.inl h3
        · exact Or.inr fun hg => hc ⟨by omega, hg⟩
      rw [bom_neg hneg]
      intro t' ht'
      have ht2 : some (⟨some block, tl, tc⟩ : String) = some t' := ht'
      injection ht2 with e
      exact e ▸ hI

theorem inv_strip_crlf (t : String) (h : Inv t) : InvOpt (str_strip_crlf (some t)) := by
  obtain ⟨d, tl, tc⟩ := t
  cases d with
  | none =>
    intro t' ht'
    injection ht' with e
    exact e ▸ h
  | some block =>
    have hI : Inv ⟨some block, tl, tc⟩ := h
    obtain ⟨hb1, hb2, hb3⟩ := h
    simp only at hb1 hb2 hb3
    by_cases h0 : tl = 0
    · subst h0
      intro t' ht'
      have ht2 : some (⟨some block, 0, tc⟩ : String) = some t' := ht'
      injection ht2 with e
      exact e ▸ hI
    · rcases hr : stripCrlfLoop block tl with ⟨block', n'⟩
      obtain ⟨h1, h2, h3, h4, h5, h6, h7⟩ := stripCrlfLoop_spec tl block block' n' hr
      have hres : str_strip_crlf (some ⟨some block, tl, tc⟩) = some ⟨some block', n', tc⟩ := by
        simp only [str_strip_crlf]
        rw [if_neg h0, hr]
      rw [hres]
      intro t' ht'
      injection ht' with e
      subst e
      refine ⟨?_, ?_, ?_⟩
      · show block'.length = tc
        rw [h2, hb1]
      · show n' < tc
        omega
      · show block'[n']? = some 0
        rcases Nat.lt_or_ge n' tl with hlt | hge
        · exact h7 hlt
        · have hn : n' = tl := Nat.le_antisymm h1 hge
          subst hn
          rw [h6 rfl]
          exact hb3

/-! ## Claims -/

/-- C1: for every byte sequence and length, `validate(bytes, length)` returns
`true` iff the bytes read — the first `length` bytes of the input — form a
well-formed UTF-8 string per RFC 3629: lead bytes in `0x00-0x7F` /
`0xC2-0xDF` / `0xE0-0xEF` / `0xF0-0xF4` with 0/1/2/3 continuation bytes of
the form `10xxxxxx`, truncated sequences and all other lead bytes rejected,
overlong encodings rejected (2-byte decodes to `>= 0x80`, 3-byte to
`>= 0x800`, 4-byte to `>= 0x10000`), surrogates `0xD800-0xDFFF` rejected,
codepoints above `0x10FFFF` rejected, and the empty input valid. -/
theorem claim_C1_utf8_validate_rfc3629 (bs : List Nat) (length : Nat)
    (hb : ∀ b ∈ bs, b < 256) :
    utf8_validate (some bs) length = true ↔ Utf8WF (bs.take length) := by
  unfold utf8_validate
  exact utf8ValidBytes_iff_wf fun b hm => hb b (List.take_subset length bs hm)

/-- Witness for C1 at the 4-byte emoji `U+1F600`. -/
theorem claim_C1_witness :
    (∀ b ∈ [0xF0, 0x9F, 0x98, 0x80], b < 256) ∧
    (utf8_validate (some [0xF0, 0x9F, 0x98, 0x80]) 4 = true ↔
      Utf8WF ([0xF0, 0x9F, 0x98, 0x80].take 4)) :=
  ⟨by decide, claim_C1_utf8_validate_rfc3629 [0xF0, 0x9F, 0x98, 0x80] 4 (by decide)⟩

/-- C2 is a code bug: on allocation failure the claim requires "no change",
but `str_push_back` on the buffer `{data = "A", len = 1, cap = 2}` with a
failing `realloc` still stores the byte over the old terminator and bumps
`len` to `cap` (its terminator store at offset 2 is out of bounds — a heap
overflow), and `str_from_cstr` with a failing `malloc` returns
`{data = NULL, len = 0, cap = strlen + 1}`, not the empty Buffer. -/
theorem claim_C2_alloc_failure_mutates :
    (∀ fresh : Nat → Nat,
      str_push_back false fresh (some ⟨some [65, 0], 1, 2⟩) 66 = some ⟨some [65, 66], 2, 2⟩) ∧
    (∀ fresh : Nat → Nat,
      str_push_back false fresh (some ⟨some [65, 0], 1, 2⟩) 66 ≠ some ⟨some [65, 0], 1, 2⟩) ∧
    str_from_cstr false (some [65, 0]) = ⟨none, 0, 2⟩ ∧
    str_from_cstr false (some [65, 0]) ≠ str_init := by
  refine ⟨fun _ => rfl, ?_, rfl, by decide⟩
  intro fresh h
  have h2 : (⟨some [65, 66], 2, 2⟩ : String) = ⟨some [65, 0], 1, 2⟩ := by
    injection ((rfl : str_push_back false fresh (some ⟨some [65, 0], 1, 2⟩) 66 =
      some ⟨some [65, 66], 2, 2⟩).symm.trans h)
  injection h2 with hdd hll
  exact absurd hdd (by decide)

/-- Counterexample to C3 as stated: when allocation fails,
`str_from_cstr("A")` returns `{data = NULL, len = 0, cap = 2}` — `cap` was
set before `malloc` — which violates the invariant `data absent → cap = 0`,
and is not the empty Buffer. -/
theorem claim_C3_counterexample :
    str_from_cstr false (some [65, 0]) = ⟨none, 0, 2⟩ ∧
    ¬ Inv (str_from_cstr false (some [65, 0])) := by
  decide

/-- Counterexample to C4 as stated: on a buffer whose content is two
consecutive UTF-8 BOMs, `strip_utf8_bom` removes one BOM per call, so a
second application changes the buffer again.  (The input satisfies the
Buffer invariant.) -/
theorem claim_C4_counterexample :
    Inv ⟨some [0xEF, 0xBB, 0xBF, 0xEF, 0xBB, 0xBF, 0], 6, 7⟩ ∧
    (str_remove_utf8_bom ((str_remove_utf8_bom
        (some ⟨some [0xEF, 0xBB, 0xBF, 0xEF, 0xBB, 0xBF, 0], 6, 7⟩)).2)).2 ≠
      (str_remove_utf8_bom (some ⟨some [0xEF, 0xBB, 0xBF, 0xEF, 0xBB, 0xBF, 0], 6, 7⟩)).2 := by
  decide

/-- Counterexample to C5 as stated: with `a` containing an embedded zero
byte (`content {0x00, 0x41}`), `b` the no-storage empty buffer and `c`
containing `"B"`, `plus(plus(a,b),c)` has content `"B"` — the
`str_from_cstr(str_data(a))` path truncates `a` at its first zero byte —
while `plus(a,plus(b,c))` has content `{0x00, 0x41, 0x42}`.  All three
operands satisfy the Buffer invariant. -/
theorem claim_C5_counterexample :
    Inv ⟨some [0, 65, 0], 2, 3⟩ ∧ Inv str_init ∧ Inv ⟨some [66, 0], 1, 2⟩ ∧
    content (str_plus true (some (str_plus true
        (some ⟨some [0, 65, 0], 2, 3⟩) (some str_init))) (some ⟨some [66, 0], 1, 2⟩)) ≠
      content (str_plus true (some ⟨some [0, 65, 0], 2, 3⟩) (some (str_plus true
        (some str_init) (some ⟨some [66, 0], 1, 2⟩)))) := by
  decide

/-- Counterexample to C6 as stated: when both sides lack storage, `str_plus`
does not return the no-storage empty Buffer — it goes through
`str_from_cstr(str_data(s2))` = `str_from_cstr("")` and returns an allocated
buffer holding just the terminator (`cap = 1`, `data` present). -/
theorem claim_C6_counterexample :
    str_plus true (some str_init) (some str_init) ≠ str_init ∧
    (str_plus true (some str_init) (some str_init)).cap = 1 ∧
    (str_plus true (some str_init) (some str_init)).data ≠ none := by
  decide

/-- C7: if the buffer's length is at least 3 and its first three bytes are
`EF BB BF`, `strip_utf8_bom` removes exactly those three bytes by shifting
the remaining bytes left by 3 (the new content is the old content minus its
first three bytes), decreases the length by 3, writes the terminator at the
new end, keeps the capacity, and returns `true`; in every other case
(including an empty buffer or one shorter than 3 bytes) it mutates nothing
and returns `false`. -/
theorem claim_C7_strip_utf8_bom (t : String) (ht : Inv t) :
    (3 ≤ t.len → (content t).take 3 = [0xEF, 0xBB, 0xBF] →
      ∃ t', str_remove_utf8_bom (some t) = (true, some t') ∧
        content t' = (content t).drop 3 ∧
        t'.len = t.len - 3 ∧ t'.cap = t.cap ∧ Inv t') ∧
    ((t.len < 3 ∨ (content t).take 3 ≠ [0xEF, 0xBB, 0xBF]) →
      str_remove_utf8_bom (some t) = (false, some t)) := by
  obtain ⟨d, tl, tc⟩ := t
  cases d with
  | none =>
    obtain ⟨hl0, hc0⟩ := ht
    subst hl0
    subst hc0
    exact ⟨fun h3 _ => absurd h3 (by decide), fun _ => rfl⟩
  | some block =>
    have hI : Inv ⟨some block, tl, tc⟩ := ht
    obtain ⟨hbl, hlt, hterm⟩ := ht
    simp only at hbl hlt hterm
    constructor
    · intro h3 hbom
      obtain ⟨block', hres, htake, hlen', hterm'⟩ := bom_pos hI h3 hbom
      refine ⟨⟨some block', tl - 3, tc⟩, hres, ?_, rfl, rfl, ?_⟩
      · show block'.take (tl - 3) = (block.take tl).drop 3
        exact htake
      · exact ⟨by simp only [hlen', hbl], Nat.lt_of_le_of_lt (Nat.sub_le tl 3) hlt, hterm'⟩
    · intro hneg
      apply bom_neg
      rcases hneg with h | h
      · exact Or.inl h
      · by_cases h3 : tl < 3
        · exact Or.inl h3
        · refine Or.inr fun hg => h ?_
          show (block.take tl).take 3 = [0xEF, 0xBB, 0xBF]
          rw [List.take_take, Nat.min_eq_left (by omega)]
          exact (take_three_eq (by omega) _ _ _).mpr hg

/-- Witness for C7 on a buffer holding BOM + `"hi"`. -/
theorem claim_C7_witness :
    Inv ⟨some [0xEF, 0xBB, 0xBF, 104, 105, 0], 5, 6⟩ ∧
    ∃ t', str_remove_utf8_bom (some ⟨some [0xEF, 0xBB, 0xBF, 104, 105, 0], 5, 6⟩) =
        (true, some t') ∧
      content t' = (content ⟨some [0xEF, 0xBB, 0xBF, 104, 105, 0], 5, 6⟩).drop 3 ∧
      t'.len = 2 ∧ t'.cap = 6 ∧ Inv t' :=
  ⟨by decide, by
    obtain ⟨t', h1, h2, h3, h4, h5⟩ :=
      (claim_C7_strip_utf8_bom ⟨some [0xEF, 0xBB, 0xBF, 104, 105, 0], 5, 6⟩ (by decide)).1
        (by decide) (by decide)
    exact ⟨t', h1, h2, h3, h4, h5⟩⟩

/-- C4 corrected: `strip_trailing_crlf` is idempotent on every input, and
`strip_utf8_bom` applied twice yields the same buffer as applied once
provided the content does not begin with two consecutive UTF-8 BOMs (the
counterexample shows a double-BOM content is stripped again by the second
application). -/
theorem claim_C4_idempotence :
    (∀ s : Option String, str_strip_crlf (str_strip_crlf s) = str_strip_crlf s) ∧
    (∀ t : String, Inv t →
      (content t).take 6 ≠ [0xEF, 0xBB, 0xBF, 0xEF, 0xBB, 0xBF] →
      (str_remove_utf8_bom ((str_remove_utf8_bom (some t)).2)).2 =
        (str_remove_utf8_bom (some t)).2) := by
  refine ⟨str_strip_crlf_idem, ?_⟩
  intro t ht h6
  obtain ⟨d, tl, tc⟩ := t
  cases d with
  | none => rfl
  | some block =>
    have hI : Inv ⟨some block, tl, tc⟩ := ht
    obtain ⟨hbl, hlt, hterm⟩ := ht
    simp only at hbl hlt hterm
    by_cases hstrip : 3 ≤ tl ∧ (block.take tl).take 3 = [0xEF, 0xBB, 0xBF]
    · obtain ⟨block', hres, htake, hlen', hterm'⟩ := bom_pos hI hstrip.1 hstrip.2
      rw [hres]
      show (str_remove_utf8_bom (some ⟨some block', tl - 3, tc⟩)).2 =
        some ⟨some block', tl - 3, tc⟩
      have hsecond : (tl - 3) < 3 ∨
          ¬(block'.getD 0 0 = 0xEF ∧ block'.getD 1 0 = 0xBB ∧ block'.getD 2 0 = 0xBF) := by
        by_cases h3' : tl - 3 < 3
        · exact Or.inl h3'
        · refine Or.inr fun hg => h6 ?_
          have hb3' : block'.take 3 = [0xEF, 0xBB, 0xBF] :=
            (take_three_eq (by rw [hlen']; omega) _ _ _).mpr hg
          have hdrop3 : ((block.take tl).drop 3).take 3 = [0xEF, 0xBB, 0xBF] := by
            rw [← htake, List.take_take, Nat.min_eq_left (by omega)]
            exact hb3'
          show (block.take tl).take 6 = [0xEF, 0xBB, 0xBF, 0xEF, 0xBB, 0xBF]
          have hsplit : (block.take tl).take 6 =
              (block.take tl).take 3 ++ ((block.take tl).drop 3).take 3 := by
            have hdt := List.take_drop 3 3 (block.take tl)
            norm_num at hdt
            conv_lhs => rw [← List.take_append_drop 3 ((block.take tl).take 6)]
            rw [List.take_take, Nat.min_eq_left (by norm_num), ← hdt]
          rw [hsplit, hstrip.2, hdrop3]
          rfl
      rw [bom_neg hsecond]
    · have hneg : tl < 3 ∨
          ¬(block.getD 0 0 = 0xEF ∧ block.getD 1 0 = 0xBB ∧ block.getD 2 0 = 0xBF) := by
        by_cases h3 : tl < 3
        · exact Or.inl h3
        · refine Or.inr fun hg => hstrip ⟨by omega, ?_⟩
          rw [List.take_take, Nat.min_eq_left (by omega)]
          exact (take_three_eq (by omega) _ _ _).mpr hg
      have hn := @bom_neg block tl tc hneg
      rw [hn]
      exact congrArg Prod.snd hn

/-- Witness for C4: CRLF idempotence on `"H\r\n"` and BOM idempotence on a
single-BOM buffer. -/
theorem claim_C4_witness :
    str_strip_crlf (str_strip_crlf (some ⟨some [72, 13, 10, 0], 3, 4⟩)) =
      str_strip_crlf (some ⟨some [72, 13, 10, 0], 3, 4⟩) ∧
    Inv ⟨some [0xEF, 0xBB, 0xBF, 104, 0], 4, 5⟩ ∧
    (content ⟨some [0xEF, 0xBB, 0xBF, 104, 0], 4, 5⟩).take 6 ≠
      [0xEF, 0xBB, 0xBF, 0xEF, 0xBB, 0xBF] ∧
    (str_remove_utf8_bom ((str_remove_utf8_bom
        (some ⟨some [0xEF, 0xBB, 0xBF, 104, 0], 4, 5⟩)).2)).2 =
      (str_remove_utf8_bom (some ⟨some [0xEF, 0xBB, 0xBF, 104, 0], 4, 5⟩)).2 :=
  ⟨claim_C4_idempotence.1 _, by decide, by decide,
    claim_C4_idempotence.2 ⟨some [0xEF, 0xBB, 0xBF, 104, 0], 4, 5⟩ (by decide) (by decide)⟩

/-- C8: after `strip_trailing_crlf` the content equals the longest prefix
of the original content whose last byte is
neither LF (10) nor CR (13) — the original content minus its maximal
trailing run of CR/LF bytes, empty if every byte is CR/LF — each removed
byte decreasing the length by 1 (`len' + #removed = len`), the terminator
at the new end, capacity never changed, and a buffer that is empty, has no
storage, or does not end in CR/LF left exactly unchanged. -/
theorem claim_C8_strip_trailing_crlf (t : String) (ht : Inv t) :
    ∃ t', str_strip_crlf (some t) = some t' ∧
      content t' = dropTrailingCrlf (content t) ∧
      t'.cap = t.cap ∧
      t'.len ≤ t.len ∧
      t'.len + ((content t).drop t'.len).length = t.len ∧
      content t = content t' ++ (content t).drop t'.len ∧
      (∀ b ∈ (content t).drop t'.len, b = 10 ∨ b = 13) ∧
      (∀ x, (content t').getLast? = some x → x ≠ 10 ∧ x ≠ 13) ∧
      (∀ block, t'.data = some block → block[t'.len]? = some 0) ∧
      ((∀ x, (content t).getLast? = some x → x ≠ 10 ∧ x ≠ 13) → t' = t) := by
  obtain ⟨d, tl, tc⟩ := t
  cases d with
  | none =>
    obtain ⟨hl0, hc0⟩ := ht
    subst hl0
    subst hc0
    refine ⟨⟨none, 0, 0⟩, rfl, rfl, rfl, Nat.le_refl _, rfl, rfl, ?_, ?_, ?_, fun _ => rfl⟩
    · intro b hb
      simp [content] at hb
    · intro x hx
      simp [content] at hx
    · intro block hb
      cases hb
  | some block =>
    obtain ⟨hlen, hlt, hterm⟩ := ht
    simp only at hlen hlt hterm
    by_cases h0 : tl = 0
    · subst h0
      refine ⟨⟨some block, 0, tc⟩, rfl, rfl, rfl, Nat.le_refl _, rfl, rfl, ?_, ?_, ?_,
        fun _ => rfl⟩
      · intro b hb
        simp [content] at hb
      · intro x hx
        simp [content] at hx
      · intro blk hb
        injection hb with hb
        subst hb
        exact hterm
    · rcases hr : stripCrlfLoop block tl with ⟨block', n'⟩
      obtain ⟨h1, h2, h3, h4, h5, h6, h7⟩ := stripCrlfLoop_spec tl block block' n' hr
      have hct : content ⟨some block, tl, tc⟩ = block.take tl := rfl
      have hct' : content ⟨some block', n', tc⟩ = block'.take n' := rfl
      have htlb : tl ≤ block.length := by omega
      have hresult : str_strip_crlf (some ⟨some block, tl, tc⟩) =
          some ⟨some block', n', tc⟩ := by
        simp only [str_strip_crlf]
        rw [if_neg h0, hr]
      have hdec : block.take tl = block'.take n' ++ (block.take tl).drop n' := by
        conv_lhs => rw [← List.take_append_drop n' (block.take tl)]
        rw [List.take_take, Nat.min_eq_left h1, ← h3]
      have hlast : ∀ x, (block'.take n').getLast? = some x → x ≠ 10 ∧ x ≠ 13 := by
        intro x hx
        rcases Nat.eq_zero_or_pos n' with hz | hpos
        · subst hz
          simp at hx
        · rcases h5 with h5 | h5
          · omega
          · have hlen' : (block'.take n').length = n' := by
              simp only [List.length_take]
              omega
            have hgl : (block'.take n').getLast? = block'[n' - 1]? := by
              rw [List.getLast?_eq_getElem?, hlen']
              exact List.getElem?_take_of_lt (by omega)
            rw [hgl] at hx
            have hgd : block'.getD (n' - 1) 0 = x := by
              simp [List.getD_eq_getElem?_getD, hx]
            rw [hgd] at h5
            exact ⟨fun he => h5 (Or.inl he), fun he => h5 (Or.inr he)⟩
      refine ⟨⟨some block', n', tc⟩, hresult, ?_, rfl, h1, ?_, ?_, ?_, ?_, ?_, ?_⟩
      · show block'.take n' = dropTrailingCrlf (block.take tl)
        rw [hdec]
        exact (dropTrailingCrlf_eq h4 hlast).symm
      · show n' + ((block.take tl).drop n').length = tl
        simp only [List.length_drop, List.length_take]
        omega
      · show block.take tl = block'.take n' ++ (block.take tl).drop n'
        exact hdec
      · show ∀ b ∈ (block.take tl).drop n', b = 10 ∨ b = 13
        exact h4
      · show ∀ x, (block'.take n').getLast? = some x → x ≠ 10 ∧ x ≠ 13
        exact hlast
      · intro blk hb
        injection hb with hb
        subst hb
        rcases Nat.lt_or_ge n' tl with hlt' | hge
        · exact h7 hlt'
        · have hn : n' = tl := Nat.le_antisymm h1 hge
          subst hn
          rw [h6 rfl]
          exact hterm
      · intro hnc
        have hfix : stripCrlfLoop block tl = (block, tl) := by
          apply stripCrlfLoop_fix
          right
          have hb1 : tl - 1 < block.length := by omega
          have hx : (block.take tl).getLast? = some (block.getD (tl - 1) 0) := by
            rw [List.getLast?_eq_getElem?]
            have hlen' : (block.take tl).length = tl := by
              simp only [List.length_take]
              omega
            rw [hlen', List.getElem?_take_of_lt (by omega)]
            simp [List.getD_eq_getElem?_getD, List.getElem?_eq_getElem hb1]
          obtain ⟨ha, hb2⟩ := hnc _ hx
          intro hor
          rcases hor with h | h
          · exact ha h
          · exact hb2 h
        rw [hfix] at hr
        injection hr with hB hN
        subst hB
        subst hN
        rfl

/-- Witness for C8 on `"Hello\r\n\r\n"`. -/
theorem claim_C8_witness :
    Inv ⟨some [72, 101, 108, 108, 111, 13, 10, 13, 10, 0], 9, 10⟩ ∧
    ∃ t', str_strip_crlf (some ⟨some [72, 101, 108, 108, 111, 13, 10, 13, 10, 0], 9, 10⟩) =
        some t' ∧
      content t' =
        dropTrailingCrlf (content ⟨some [72, 101, 108, 108, 111, 13, 10, 13, 10, 0], 9, 10⟩) :=
  ⟨by decide, by
    obtain ⟨t', he, hc, -⟩ := claim_C8_strip_trailing_crlf
      ⟨some [72, 101, 108, 108, 111, 13, 10, 13, 10, 0], 9, 10⟩ (by decide)
    exact ⟨t', he, hc⟩⟩

/-- C3 corrected: every constructor establishes, and every operation except
`str_reserve` on a storage-less buffer preserves, the Buffer invariant when
the allocations involved succeed — for any values of the uninitialized
bytes a grown allocation brings.  `str_reserve` on a buffer with `data`
absent materializes storage whose bytes are all `realloc`-fresh (the
conjunct on `str_init` exhibits exactly `[fresh 0, fresh 1]`), so the
invariant's terminator clause need not hold until a later write; the
preservation conjunct for `str_reserve` therefore carries `data ≠ none`
(`str_push_back` and `str_concat` write the terminator explicitly and do
preserve the invariant from any invariant state).  On allocation failure
`str_from_cstr` and `str_plus` return a buffer with `data` absent and
`len = 0` but `cap` equal to the attempted allocation size (`cap` is
assigned before `malloc`), violating the invariant's `data absent → cap
= 0` clause — they do not return the empty Buffer. -/
theorem claim_C3_invariant_preservation :
    Inv str_init ∧
    (∀ p : List Nat, (0 : Nat) ∈ p → Inv (str_from_cstr true (some p))) ∧
    (∀ s : Option String, InvOpt (str_free s)) ∧
    (∀ (s : String) (n : Nat) (alloc : Bool) (fresh : Nat → Nat), Inv s →
      s.data ≠ none → Inv (str_reserve_s alloc fresh s n)) ∧
    (∀ fresh : Nat → Nat,
      str_reserve_s true fresh str_init 2 = ⟨some [fresh 0, fresh 1], 0, 2⟩) ∧
    (∀ (s : String) (c : Nat) (fresh : Nat → Nat), Inv s →
      InvOpt (str_push_back true fresh (some s) c)) ∧
    (∀ (d t : String) (fresh : Nat → Nat), Inv d → Inv t →
      InvOpt (str_concat true fresh (some d) (some t))) ∧
    (∀ s1 s2 : Option String, InvOpt s1 → InvOpt s2 → Inv (str_plus true s1 s2)) ∧
    (∀ s : String, Inv s → InvOpt ((str_remove_utf8_bom (some s)).2)) ∧
    (∀ s : String, Inv s → InvOpt (str_strip_crlf (some s))) ∧
    (∀ p : List Nat, str_from_cstr false (some p) = ⟨none, 0, cstrlen p + 1⟩) ∧
    (∀ (t1 t2 : String) (b1 b2 : List Nat), t1.data = some b1 → t2.data = some b2 →
      str_plus false (some t1) (some t2) = ⟨none, 0, t1.len + t2.len + 1⟩) := by
  refine ⟨⟨rfl, rfl⟩, ?_, ?_, ?_, ?_, ?_, ?_, ?_, ?_, ?_, ?_, ?_⟩
  · exact fun p hp => (str_from_cstr_true_spec p hp).2.1
  · intro s
    match s with
    | none =>
      intro t' ht'
      cases ht'
    | some u =>
      intro t' ht'
      injection ht' with e
      exact e ▸ ⟨rfl, rfl⟩
  · exact fun s n alloc fresh h hd => inv_reserve s n alloc fresh h hd
  · exact fun fresh => rfl
  · exact fun s c fresh h => inv_push_back s c fresh h
  · exact fun d t fresh hd ht => inv_concat d t fresh hd ht
  · exact fun s1 s2 h1 h2 => (inv_plus s1 s2 h1 h2).1
  · exact fun s h => inv_bom s h
  · exact fun s h => inv_strip_crlf s h
  · exact fun _ => rfl
  · intro t1 t2 b1 b2 h1 h2
    obtain ⟨d1, l1, c1⟩ := t1
    obtain ⟨d2, l2, c2⟩ := t2
    simp only at h1 h2
    subst h1
    subst h2
    rfl

/-- Witness for C3: invariant established by a successful `str_from_cstr`,
and the invariant-violating shape left by a failed one. -/
theorem claim_C3_witness :
    ((0 : Nat) ∈ [65, 0] ∧ Inv (str_from_cstr true (some [65, 0]))) ∧
    str_from_cstr false (some [65, 0]) = ⟨none, 0, cstrlen [65, 0] + 1⟩ :=
  ⟨⟨by decide, claim_C3_invariant_preservation.2.1 [65, 0] (by decide)⟩,
    claim_C3_invariant_preservation.2.2.2.2.2.2.2.2.2.2.1 [65, 0]⟩

/-- C5 corrected: `plus` is associative on logical content whenever all
three buffers have storage, and whenever no buffer's logical content
contains an embedded zero byte (whatever the storage); the counterexample
shows it can fail when an absent-storage operand meets a zero-containing
content, because the `str_from_cstr(str_data(...))` path truncates at the
first zero byte. -/
theorem claim_C5_associativity :
    (∀ a b c : String, Inv a → Inv b → Inv c →
      a.data ≠ none → b.data ≠ none → c.data ≠ none →
      content (str_plus true (some (str_plus true (some a) (some b))) (some c)) =
        content (str_plus true (some a) (some (str_plus true (some b) (some c))))) ∧
    (∀ a b c : String, Inv a → Inv b → Inv c →
      (0 : Nat) ∉ content a → (0 : Nat) ∉ content b → (0 : Nat) ∉ content c →
      content (str_plus true (some (str_plus true (some a) (some b))) (some c)) =
        content (str_plus true (some a) (some (str_plus true (some b) (some c))))) := by
  constructor
  · intro a b c ha hb hc da db dc
    obtain ⟨ba, hba⟩ := Option.ne_none_iff_exists'.mp da
    obtain ⟨bb, hbb⟩ := Option.ne_none_iff_exists'.mp db
    obtain ⟨bc, hbc⟩ := Option.ne_none_iff_exists'.mp dc
    obtain ⟨hab_eq, hab_c, hab_inv⟩ := str_plus_data_spec a b ba bb hba hbb ha hb
    obtain ⟨hbc_eq, hbc_c, hbc_inv⟩ := str_plus_data_spec b c bb bc hbb hbc hb hc
    have hab_d : (str_plus true (some a) (some b)).data =
        some (ba.take a.len ++ bb.take (b.len + 1)) := by rw [hab_eq]
    have hbc_d : (str_plus true (some b) (some c)).data =
        some (bb.take b.len ++ bc.take (c.len + 1)) := by rw [hbc_eq]
    obtain ⟨-, h1c, -⟩ := str_plus_data_spec _ c _ bc hab_d hbc hab_inv hc
    obtain ⟨-, h2c, -⟩ := str_plus_data_spec a _ ba _ hba hbc_d ha hbc_inv
    rw [h1c, h2c, hab_c, hbc_c, List.append_assoc]
  · intro a b c ha hb hc za zb zc
    have za' : ∀ x ∈ content a, x ≠ 0 := fun x hx h0 => za (h0 ▸ hx)
    have zb' : ∀ x ∈ content b, x ≠ 0 := fun x hx h0 => zb (h0 ▸ hx)
    have zc' : ∀ x ∈ content c, x ≠ 0 := fun x hx h0 => zc (h0 ▸ hx)
    obtain ⟨hab_inv, -⟩ := inv_plus (some a) (some b) (invOpt_some ha) (invOpt_some hb)
    obtain ⟨hbc_inv, -⟩ := inv_plus (some b) (some c) (invOpt_some hb) (invOpt_some hc)
    have hab_c := plus_zerofree a b ha hb za' zb'
    have hbc_c := plus_zerofree b c hb hc zb' zc'
    have zab : ∀ x ∈ content (str_plus true (some a) (some b)), x ≠ 0 := by
      rw [hab_c]
      intro x hx
      rcases List.mem_append.mp hx with h | h
      · exact za' x h
      · exact zb' x h
    have zbc : ∀ x ∈ content (str_plus true (some b) (some c)), x ≠ 0 := by
      rw [hbc_c]
      intro x hx
      rcases List.mem_append.mp hx with h | h
      · exact zb' x h
      · exact zc' x h
    rw [plus_zerofree _ c hab_inv hc zab zc', plus_zerofree a _ ha hbc_inv za' zbc,
      hab_c, hbc_c, List.append_assoc]

/-- Witness for C5 (all-storage clause) on `"H" + "i" + "!"`. -/
theorem claim_C5_witness :
    (Inv ⟨some [72, 0], 1, 2⟩ ∧ Inv ⟨some [105, 0], 1, 2⟩ ∧ Inv ⟨some [33, 0], 1, 2⟩) ∧
    content (str_plus true (some (str_plus true (some ⟨some [72, 0], 1, 2⟩)
        (some ⟨some [105, 0], 1, 2⟩))) (some ⟨some [33, 0], 1, 2⟩)) =
      content (str_plus true (some ⟨some [72, 0], 1, 2⟩) (some (str_plus true
        (some ⟨some [105, 0], 1, 2⟩) (some ⟨some [33, 0], 1, 2⟩)))) :=
  ⟨⟨by decide, by decide, by decide⟩,
    claim_C5_associativity.1 ⟨some [72, 0], 1, 2⟩ ⟨some [105, 0], 1, 2⟩ ⟨some [33, 0], 1, 2⟩
      (by decide) (by decide) (by decide) (by decide) (by decide) (by decide)⟩

/-- C6 corrected: with both sides stored, `plus` concatenates the logical
contents; with exactly one side lacking storage the result is the other
side's content truncated at its first embedded zero byte (the full content
when zero-free); with both sides lacking storage the result is an
empty-content buffer owning a 1-byte allocation holding the terminator —
`{data = "\0", len = 0, cap = 1}` — not the no-storage empty Buffer. -/
theorem claim_C6_plus_content :
    (∀ t1 t2 : String, Inv t1 → Inv t2 → t1.data ≠ none → t2.data ≠ none →
      content (str_plus true (some t1) (some t2)) = content t1 ++ content t2) ∧
    (∀ (s1 : Option String) (t2 : String), NoStorage s1 → Inv t2 →
      content (str_plus true s1 (some t2)) = (content t2).takeWhile (fun b => b != 0)) ∧
    (∀ (t1 : String) (s2 : Option String), Inv t1 → t1.data ≠ none → NoStorage s2 →
      content (str_plus true (some t1) s2) = (content t1).takeWhile (fun b => b != 0)) ∧
    (∀ s1 s2 : Option String, NoStorage s1 → NoStorage s2 →
      str_plus true s1 s2 = ⟨some [0], 0, 1⟩) := by
  refine ⟨?_, ?_, ?_, ?_⟩
  · intro t1 t2 h1 h2 d1 d2
    obtain ⟨b1, hb1⟩ := Option.ne_none_iff_exists'.mp d1
    obtain ⟨b2, hb2⟩ := Option.ne_none_iff_exists'.mp d2
    exact (str_plus_data_spec t1 t2 b1 b2 hb1 hb2 h1 h2).2.1
  · intro s1 t2 hns h2
    rw [str_plus_left_nostorage _ _ hns]
    obtain ⟨h0, htw⟩ := str_data_spec t2 h2
    obtain ⟨hc, -⟩ := str_from_cstr_true_spec _ h0
    rw [hc, htw]
  · intro t1 s2 h1 d1 hns
    obtain ⟨b1, hb1⟩ := Option.ne_none_iff_exists'.mp d1
    rw [str_plus_right_nostorage _ b1 _ hb1 hns]
    obtain ⟨h0, htw⟩ := str_data_spec t1 h1
    obtain ⟨hc, -⟩ := str_from_cstr_true_spec _ h0
    rw [hc, htw]
  · intro s1 s2 hn1 hn2
    rw [str_plus_left_nostorage _ _ hn1, str_data_nostorage hn2]
    rfl

/-- Witness for C6 (both-stored clause, and the both-no-storage shape). -/
theorem claim_C6_witness :
    (Inv ⟨some [104, 0], 1, 2⟩ ∧ Inv ⟨some [105, 0], 1, 2⟩) ∧
    content (str_plus true (some ⟨some [104, 0], 1, 2⟩) (some ⟨some [105, 0], 1, 2⟩)) =
      content ⟨some [104, 0], 1, 2⟩ ++ content ⟨some [105, 0], 1, 2⟩ ∧
    str_plus true (some str_init) none = ⟨some [0], 0, 1⟩ :=
  ⟨⟨by decide, by decide⟩,
    claim_C6_plus_content.1 ⟨some [104, 0], 1, 2⟩ ⟨some [105, 0], 1, 2⟩
      (by decide) (by decide) (by decide) (by decide),
    claim_C6_plus_content.2.2.2 (some str_init) none (by decide) (by decide)⟩

/-- C9: every public operation is total on a NULL `String*`: `str_free`,
`str_reserve`, `str_push_back`, `str_concat` and `str_strip_crlf` are
no-ops, `str_remove_utf8_bom` additionally reports `false`, `str_data`
returns the valid empty C string `""` rather than NULL, and
`str_validate_utf8` reports `true`. -/
theorem claim_C9_null_totality :
    str_free none = none ∧
    (∀ (alloc : Bool) (fresh : Nat → Nat) (n : Nat),
      str_reserve alloc fresh none n = none) ∧
    (∀ (alloc : Bool) (fresh : Nat → Nat) (c : Nat),
      str_push_back alloc fresh none c = none) ∧
    (∀ (alloc : Bool) (fresh : Nat → Nat) (src : Option String),
      str_concat alloc fresh none src = none) ∧
    str_remove_utf8_bom none = (false, none) ∧
    str_strip_crlf none = none ∧
    str_data none = [0] ∧
    (str_data none).takeWhile (fun b => b != 0) = [] ∧
    str_validate_utf8 none = true :=
  ⟨rfl, fun _ _ _ => rfl, fun _ _ _ => rfl, fun _ _ _ => rfl, rfl, rfl, rfl, rfl, rfl⟩

/-- C10: `utf8_validate(NULL, length)` returns `true` for every claimed
length; the NULL check precedes any read. -/
theorem claim_C10_validate_null : ∀ length : Nat, utf8_validate none length = true :=
  fun _ => rfl

end C99
